import Mathlib

/-!
Verification development for the NaratedVideoCreator repository.

The two core modules are embedded here:
* `src/tts_synthesizer.py` — the text chunker `_split_text` and the
  directory synthesis driver `synthesize_directory`;
* `src/video_producer.py` — the media pairing, audio grouping, timeline
  assembly and cleanup logic of `create_video_from_directory`.

Text is modelled as `List Char`.  File-modification times and media
durations (Python floats) are modelled as rationals `ℚ`.  Every function
is a direct translation of the corresponding Python code; deviations
forced by the modelling are recorded in the doc comment of the
definition concerned.
-/

/-- Python whitespace class used by `str.split()`, `str.strip()` and the
regex class `\s` (restricted to the ASCII characters that can occur in
the modelled texts). -/
def isPySpace (c : Char) : Bool :=
  c = ' ' || c = '\t' || c = '\n' || c = '\r' || c = '\x0b' || c = '\x0c'

/-- Worker for `pyWords`: `cur` is the reversed current word. -/
def pyWordsAux : List Char → List Char → List (List Char)
  | cur, [] => if cur = [] then [] else [cur.reverse]
  | cur, c :: rest =>
    if isPySpace c then
      if cur = [] then pyWordsAux [] rest else cur.reverse :: pyWordsAux [] rest
    else pyWordsAux (c :: cur) rest

/-- Python `str.split()` with no separator: maximal runs of
non-whitespace characters, surrounding whitespace discarded. -/
def pyWords (s : List Char) : List (List Char) := pyWordsAux [] s

/-- Python `str.strip()`: remove leading and trailing whitespace. -/
def pyStrip (s : List Char) : List Char :=
  ((s.dropWhile isPySpace).reverse.dropWhile isPySpace).reverse

/-- Python `text.replace("\r\n", "\n")` (left-to-right, non-overlapping
occurrences). -/
def replaceCRLF : List Char → List Char
  | [] => []
  | [c] => [c]
  | c :: c2 :: rest =>
    if c = '\r' ∧ c2 = '\n' then '\n' :: replaceCRLF rest
    else c :: replaceCRLF (c2 :: rest)

/-- Python `text.replace("\r", "\n")`. -/
def replaceCR : List Char → List Char
  | [] => []
  | c :: rest => if c = '\r' then '\n' :: replaceCR rest else c :: replaceCR rest

/-- Line-ending normalization at the top of `_split_text`:
`text.replace("\r\n", "\n").replace("\r", "\n")`. -/
def normalizeText (s : List Char) : List Char := replaceCR (replaceCRLF s)

/-- Worker for `splitNN`: `acc` is the reversed current piece. -/
def splitNNAux : List Char → List Char → List (List Char)
  | acc, [] => [acc.reverse]
  | acc, [c] => [(c :: acc).reverse]
  | acc, c :: c2 :: rest =>
    if c = '\n' ∧ c2 = '\n' then acc.reverse :: splitNNAux [] rest
    else splitNNAux (c :: acc) (c2 :: rest)

/-- Python `normalized.split("\n\n")`: split on each (leftmost,
non-overlapping) occurrence of a blank-line separator. -/
def splitNN (s : List Char) : List (List Char) := splitNNAux [] s

/-- Does the head of the reversed accumulator end a sentence
(the lookbehind `(?<=[.!?])` of the sentence-splitting regex)? -/
def headPunct (acc : List Char) : Bool :=
  match acc with
  | p :: _ => p = '.' || p = '!' || p = '?'
  | [] => false

/-- Worker for `sentSplit`, a scanner for
`re.split(r"(?<=[.!?])\s+", paragraph)`.  In mode `true` the scanner is
consuming the whitespace run of a match (`\s+` is greedy); `acc` is the
reversed current segment. -/
def sentAux : Bool → List Char → List Char → List (List Char)
  | _, acc, [] => [acc.reverse]
  | true, acc, c :: rest =>
    if isPySpace c then sentAux true acc rest else sentAux false (c :: acc) rest
  | false, acc, c :: rest =>
    if isPySpace c && headPunct acc then acc.reverse :: sentAux true [] rest
    else sentAux false (c :: acc) rest

/-- Python `re.split(r"(?<=[.!?])\s+", paragraph)`: split after a run of
whitespace whose first character is preceded by `.`, `!` or `?`;
punctuation stays with the preceding segment. -/
def sentSplit (p : List Char) : List (List Char) := sentAux false [] p

/-- Python `" ".join(l)`. -/
def joinSpace : List (List Char) → List Char
  | [] => []
  | [s] => s
  | s :: ss => s ++ ' ' :: joinSpace ss

/-- Fuel-indexed worker for `windows`; fuel `l.length` always suffices
when `1 ≤ k`. -/
def windowsF {α : Type} : Nat → Nat → List α → List (List α)
  | 0, _, _ => []
  | _ + 1, _, [] => []
  | fuel + 1, k, l => l.take k :: windowsF fuel k (l.drop k)

/-- Python `for i in range(0, n, k): words[i : i + k]` — consecutive
windows of `k` elements, the final window possibly shorter. -/
def windows {α : Type} (k : Nat) (l : List α) : List (List α) :=
  windowsF l.length k l

/-- State of the accumulation loop of `_split_text`: the chunks emitted
so far, the sentences of the current (open) chunk, and its running word
count. -/
structure SplitState where
  chunks : List (List Char)
  cur : List (List Char)
  wc : Nat

/-- The body of the per-sentence loop of `_split_text` (lines 89–118 of
`tts_synthesizer.py`): skip word-less sentences; flush and window-split
a sentence longer than `maxW` words; close the current chunk when the
sentence would overflow it; otherwise accumulate the sentence. -/
def splitStep (maxW : Nat) (σ : SplitState) (sentence : List Char) : SplitState :=
  let ws := pyWords sentence
  let n := ws.length
  if n = 0 then σ
  else if n > maxW then
    let flushed := if σ.cur = [] then σ.chunks else σ.chunks ++ [joinSpace σ.cur]
    ⟨flushed ++ (windows maxW ws).map joinSpace, [], 0⟩
  else if σ.wc + n > maxW ∧ σ.cur ≠ [] then
    ⟨σ.chunks ++ [joinSpace σ.cur], [sentence], n⟩
  else
    ⟨σ.chunks, σ.cur ++ [sentence], σ.wc + n⟩

/-- Paragraph list of `_split_text`: split the normalized text on blank
lines, strip each piece, and drop the empty ones. -/
def paragraphsOf (t : List Char) : List (List Char) :=
  ((splitNN (normalizeText t)).map pyStrip).filter (fun p => decide (p ≠ []))

/-- Sentence list of one paragraph: regex split, strip, drop empties. -/
def sentencesOfPara (p : List Char) : List (List Char) :=
  ((sentSplit p).map pyStrip).filter (fun s => decide (s ≠ []))

/-- All sentences of the input in processing order.  The Python loop
nests the sentence loop in the paragraph loop, but carries its state
across paragraph boundaries, so the state threads through this
flattened list exactly as in the source. -/
def allSentencesOf (t : List Char) : List (List Char) :=
  ((paragraphsOf t).map sentencesOfPara).flatten

/-- The accumulation state after the loops of `_split_text`. -/
def splitFinal (t : List Char) (maxW : Nat) : SplitState :=
  (allSentencesOf t).foldl (splitStep maxW) ⟨[], [], 0⟩

/-- `SpeechSynthesizer._split_text(text, max_words)`. -/
def split_text (t : List Char) (maxW : Nat) : List (List Char) :=
  let st := splitFinal t maxW
  st.chunks ++ (if st.cur = [] then [] else [joinSpace st.cur])

/-- Word sequence obtained by concatenating, in order, the words of the
given strings. -/
def wordsConcat (l : List (List Char)) : List (List Char) :=
  (l.map pyWords).flatten

/-- Syntactic paragraph break: the normalized text contains the two-byte
separator `"\n\n"`. -/
def hasNN : List Char → Bool
  | [] => false
  | [_] => false
  | c :: c2 :: rest => (c = '\n' && c2 = '\n') || hasNN (c2 :: rest)

/-! ## Synthesis driver (`synthesize_directory`) -/

/-- One input text file of `synthesize_directory`: filename stem,
contents, and last-modified time. -/
structure TxtFile where
  stem : List Char
  text : List Char
  mtime : ℚ

/-- Python `f"{idx:02d}"`: decimal digits padded on the left with `'0'`
to at least two characters. -/
def fmt02 (n : Nat) : List Char :=
  let d := Nat.toDigits 10 n
  if d.length < 2 then '0' :: d else d

/-- Output filename of chunk number `idx` (1-based) for a multi-chunk
text file: `f"{base_name}-{idx:02d}{suffix}"`. -/
def chunkOutName (stem suffix : List Char) (idx : Nat) : List Char :=
  stem ++ '-' :: (fmt02 idx ++ suffix)

/-- The output filenames `synthesize_directory` considers for a chunk
list: `{stem}{suffix}` for a single chunk, else
`{stem}-01{suffix}, {stem}-02{suffix}, …` in chunk order. -/
def plannedOutputs (stem suffix : List Char) (chunks : List (List Char)) : List (List Char) :=
  if chunks.length = 1 then [stem ++ suffix]
  else (List.range chunks.length).map (fun i => chunkOutName stem suffix (i + 1))

/-- The regeneration test of `synthesize_directory` for one output file:
regenerate when the output does not exist, or when the text file is
strictly newer than the existing output. -/
def needsRegen (ex : List Char → Option ℚ) (txtM : ℚ) (out : List Char) : Bool :=
  match ex out with
  | none => true
  | some am => decide (am < txtM)

/-- The body of the per-chunk loop of `synthesize_directory` (lines
212–236 of `tts_synthesizer.py`): skip the chunk when its output exists
and the text is not newer, else (re)generate it and append the output
path to `generated`. -/
def chunkStep (stem suffix : List Char) (ex : List Char → Option ℚ) (mt : ℚ)
    (gen : List (List Char)) (ic : Nat × List Char) : List (List Char) :=
  let out := chunkOutName stem suffix ic.1
  match ex out with
  | some am => if mt ≤ am then gen else gen ++ [out]
  | none => gen ++ [out]

/-- Processing of one text file inside `synthesize_directory`
(lines 181–236 of `tts_synthesizer.py`), returned as the list of output
filenames generated for this file, in generation order.  `ex` maps an
output filename to its modification time when the file exists.  The
actual waveform synthesis and writes are external collaborators; their
filesystem effect is not modelled, only the generated-path list. -/
def processTxt (suffix : List Char) (ex : List Char → Option ℚ) (t : TxtFile) : List (List Char) :=
  let text := pyStrip t.text
  if text = [] then []
  else
    let chunks := split_text text 100
    if chunks.length = 1 then
      let out := t.stem ++ suffix
      match ex out with
      | some am => if t.mtime ≤ am then [] else [out]
      | none => [out]
    else
      (List.enumFrom 1 chunks).foldl (chunkStep t.stem suffix ex t.mtime) []

/-- `SpeechSynthesizer.synthesize_directory`, after directory setup:
fold over the text files (already in sorted-glob order), accumulating
the generated output filenames. -/
def synthesize_directory (txts : List TxtFile) (ex : List Char → Option ℚ)
    (suffix : List Char) : List (List Char) :=
  txts.foldl (fun gen t => gen ++ processTxt suffix ex t) []

/-! ## Video producer (`create_video_from_directory`) -/

/-- ASCII lowercasing of a filename, Python `str.lower()`. -/
def lowStr (s : List Char) : List Char := s.map Char.toLower

/-- Lexicographic (code-point) comparison of strings, Python `<=`. -/
def lexLeB : List Char → List Char → Bool
  | [], _ => true
  | _ :: _, [] => false
  | a :: as, b :: bs => if a < b then true else if a = b then lexLeB as bs else false

/-- The sort key relation of the producer's scans:
`key=lambda p: p.name.lower()`. -/
def nameLe (a b : List Char) : Prop := lexLeB (lowStr a) (lowStr b) = true

instance : DecidableRel nameLe := fun a b =>
  inferInstanceAs (Decidable (_ = true))

/-- Comparison by chunk index, the key of
`sorted(audio_groups[stem], key=lambda t: t[0])`. -/
def idxLe (e f : Nat × List Char) : Prop := e.1 ≤ f.1

instance : DecidableRel idxLe := fun e f =>
  inferInstanceAs (Decidable (e.1 ≤ f.1))

/-- `pathlib.PurePath.stem`: the filename without its final suffix; a
name whose only dot is leading or trailing has no suffix. -/
def stemOf (name : List Char) : List Char :=
  let r := name.reverse
  let ext := r.takeWhile (fun c => decide (c ≠ '.'))
  if ext.length = 0 then name
  else if name.length ≤ ext.length + 1 then name
  else (r.drop (ext.length + 1)).reverse

/-- Python `stem.rsplit("-", 1)` when `"-" in stem`: the part before the
last dash, and the part after it. -/
def rsplitDash (stem : List Char) : List Char × List Char :=
  let r := stem.reverse
  (((r.dropWhile (fun c => decide (c ≠ '-'))).drop 1).reverse,
   (r.takeWhile (fun c => decide (c ≠ '-'))).reverse)

/-- Python `int(s)` on a digit string. -/
def natOfDigits (ds : List Char) : Nat :=
  ds.foldl (fun n c => n * 10 + (c.toNat - '0'.toNat)) 0

/-- Python `s.isdigit()` restricted to ASCII (empty string excluded at
the use site, as in the source). -/
def allDigits (ds : List Char) : Bool := ds.all Char.isDigit

/-- Base name and chunk index of an audio filename stem (lines 99–106 of
`video_producer.py`): strip a trailing `-NN` all-digits suffix to get
base plus index `int(NN)`; otherwise the stem is its own base with
index 0. -/
def parseStem (stem : List Char) : List Char × Nat :=
  if '-' ∈ stem then
    let bs := rsplitDash stem
    if allDigits bs.2 ∧ bs.2 ≠ [] then (bs.1, natOfDigits bs.2) else (stem, 0)
  else (stem, 0)

/-- Python's stable sort by lowercased filename,
`sorted(…, key=lambda p: p.name.lower())`.  `List.insertionSort` is
stable, so it computes the same list as Python's stable sort. -/
def sortByNameLower (l : List (List Char)) : List (List Char) :=
  List.insertionSort nameLe l

/-- `audio_groups.setdefault(base, []).append((idx, p))`: append the
entry to the group of `b`, creating the group at the end (dict
insertion order) when absent. -/
def addGroup (gs : List (List Char × List (Nat × List Char))) (b : List Char)
    (e : Nat × List Char) : List (List Char × List (Nat × List Char)) :=
  match gs with
  | [] => [(b, [e])]
  | g :: rest => if g.1 = b then (g.1, g.2 ++ [e]) :: rest else g :: addGroup rest b e

/-- The `audio_groups` dict: iterate the audio filenames sorted by
lowercased name, parse each stem, and append to its base's group. -/
def audioGroupsOf (auds : List (List Char)) : List (List Char × List (Nat × List Char)) :=
  (sortByNameLower auds).foldl
    (fun gs p =>
      let bi := parseStem (stemOf p)
      addGroup gs bi.1 (bi.2, p))
    []

/-- Dict lookup in the association list of audio groups. -/
def lookupGroup (gs : List (List Char × List (Nat × List Char))) (b : List Char) :
    List (Nat × List Char) :=
  match gs with
  | [] => []
  | g :: rest => if g.1 = b then g.2 else lookupGroup rest b

/-- `sorted(audio_groups[stem], key=lambda t: t[0])`: the group's
entries, stably sorted by chunk index. -/
def groupChunks (gs : List (List Char × List (Nat × List Char))) (b : List Char) :
    List (Nat × List Char) :=
  List.insertionSort idxLe (lookupGroup gs b)

/-- The key list of the audio-groups dict. -/
def groupKeys (gs : List (List Char × List (Nat × List Char))) : List (List Char) :=
  gs.map Prod.fst

/-- `{p.stem: p}` update: set the value of a key in an association
list, appending a new binding (dict insertion order) when absent. -/
def setAssoc (m : List (List Char × List Char)) (k v : List Char) :
    List (List Char × List Char) :=
  match m with
  | [] => [(k, v)]
  | e :: rest => if e.1 = k then (k, v) :: rest else e :: setAssoc rest k v

/-- The `image_map` dict comprehension over the images sorted by
lowercased filename: stem maps to the image filename. -/
def imageMapOf (imgs : List (List Char)) : List (List Char × List Char) :=
  (sortByNameLower imgs).foldl (fun m p => setAssoc m (stemOf p) p) []

/-- Dict lookup in the image map (only invoked on present keys). -/
def lookupImg (m : List (List Char × List Char)) (b : List Char) : List Char :=
  match m with
  | [] => []
  | e :: rest => if e.1 = b then e.2 else lookupImg rest b

/-- A canonical enumeration of
`set(image_map.keys()) & set(audio_groups.keys())`.  CPython's set
iteration order is unspecified (it varies with hash randomization), so
`create_video` takes the enumeration as a parameter; theorems constrain
it to be a permutation of this canonical list. -/
def interCanon (imgs auds : List (List Char)) : List (List Char) :=
  ((imageMapOf imgs).map Prod.fst).filter
    (fun b => decide (b ∈ groupKeys (audioGroupsOf auds)))

/-- One assembled visual/audio segment: the pair's base name, image
file, audio file, the start offset of the audio inside the segment, and
the segment's total duration. -/
structure Seg where
  base : List Char
  img : List Char
  aud : List Char
  audioStart : ℚ
  total : ℚ
deriving DecidableEq

/-- `lead_in = 1.0` — seconds of silent lead before the audio starts. -/
def leadIn : ℚ := 1

/-- The inner loop of `create_video_from_directory` for one matched base
name: one segment per audio chunk in sorted-index order, the image held
for `audio duration + lead-in`, the audio delayed by the lead-in. -/
def segsOfPair (dur : List Char → ℚ) (imap : List (List Char × List Char))
    (gs : List (List Char × List (Nat × List Char))) (b : List Char) : List Seg :=
  (groupChunks gs b).map (fun e => ⟨b, lookupImg imap b, e.2, leadIn, dur e.2 + leadIn⟩)

/-- `create_video_from_directory`, up to the final concatenated
timeline: build the image map and audio groups, sort the common stems
case-insensitively, fail when there are none, else concatenate the
segments in pair order then chunk-index order.  `interEnum` is the
(hash-order dependent) enumeration of the stem intersection set;
`dur p` is the duration `AudioFileClip(p).duration`. -/
def create_video (imgs auds interEnum : List (List Char)) (dur : List Char → ℚ) :
    Except String (List Seg) :=
  let imap := imageMapOf imgs
  let gs := audioGroupsOf auds
  let commonStems := List.insertionSort nameLe interEnum
  if commonStems = [] then .error "No matching (png,wav) pairs found"
  else .ok ((commonStems.map (segsOfPair dur imap gs)).flatten)

/-- The matched-pair order of a produced timeline (empty on failure). -/
def pairOrderOf (r : Except String (List Seg)) : List (List Char) :=
  match r with
  | .error _ => []
  | .ok segs => segs.map Seg.base

/-- Events at the tail of `create_video_from_directory`
(lines 172–177 of `video_producer.py`). -/
inductive VEvent where
  | write (ok : Bool)
  | closeClip (i : Nat)
  | closeFinal
deriving DecidableEq

/-- The observable event trace of the write-and-clean-up tail of
`create_video_from_directory`: `final.write_videofile(...)`, then
`c.close()` for each per-chunk clip, then `final.close()`.  There is no
`try`/`finally`, so an exception raised by the write propagates and none
of the `close()` calls run. -/
def finishEvents (clipCount : Nat) (writeRaises : Bool) : List VEvent :=
  if writeRaises then [VEvent.write false]
  else VEvent.write true :: ((List.range clipCount).map VEvent.closeClip ++ [VEvent.closeFinal])

/-! ## Word-sequence lemmas -/

lemma pyWordsAux_ne_nil {cur : List Char} (h : cur ≠ []) (s : List Char) :
    pyWordsAux cur s ≠ [] := by
  induction s generalizing cur with
  | nil => simp [pyWordsAux, h]
  | cons c rest ih =>
    by_cases hc : isPySpace c
    · simp [pyWordsAux, hc, h]
    · simpa [pyWordsAux, hc] using ih (by simp)

lemma pyWordsAux_skip (w : List Char) (hw : ∀ c ∈ w, isPySpace c = true) (b : List Char) :
    pyWordsAux [] (w ++ b) = pyWordsAux [] b := by
  induction w with
  | nil => rfl
  | cons c w' ih =>
    have hc : isPySpace c = true := hw c (by simp)
    simpa [pyWordsAux, hc] using ih (fun x hx => hw x (by simp [hx]))

lemma pyWordsAux_wsflush (w : List Char) (hw0 : w ≠ []) (hw : ∀ c ∈ w, isPySpace c = true)
    (b cur : List Char) :
    pyWordsAux cur (w ++ b) = (if cur = [] then [] else [cur.reverse]) ++ pyWordsAux [] b := by
  cases w with
  | nil => exact absurd rfl hw0
  | cons c w' =>
    have hc : isPySpace c = true := hw c (by simp)
    have hskip := pyWordsAux_skip w' (fun x hx => hw x (by simp [hx])) b
    by_cases hcur : cur = [] <;> simp [pyWordsAux, hc, hcur, hskip]

lemma pyWordsAux_append_ws (w b : List Char) (hw0 : w ≠ []) (hw : ∀ c ∈ w, isPySpace c = true)
    (a : List Char) :
    ∀ cur : List Char, pyWordsAux cur (a ++ (w ++ b)) = pyWordsAux cur a ++ pyWordsAux [] b := by
  induction a with
  | nil =>
    intro cur
    rw [List.nil_append, pyWordsAux_wsflush w hw0 hw b cur]
    by_cases hcur : cur = [] <;> simp [pyWordsAux, hcur]
  | cons c a' ih =>
    intro cur
    by_cases hc : isPySpace c
    · by_cases hcur : cur = [] <;> simp [pyWordsAux, hc, hcur, ih]
    · simp [pyWordsAux, hc, ih]

lemma pyWords_append_ws {w : List Char} (hw0 : w ≠ []) (hw : ∀ c ∈ w, isPySpace c = true)
    (a b : List Char) :
    pyWords (a ++ (w ++ b)) = pyWords a ++ pyWords b := by
  unfold pyWords
  rw [pyWordsAux_append_ws w b hw0 hw a []]

lemma pyWords_ws_left {w : List Char} (hw : ∀ c ∈ w, isPySpace c = true) (b : List Char) :
    pyWords (w ++ b) = pyWords b :=
  pyWordsAux_skip w hw b

lemma pyWords_ws_right {w : List Char} (hw : ∀ c ∈ w, isPySpace c = true) (a : List Char) :
    pyWords (a ++ w) = pyWords a := by
  cases w with
  | nil => simp
  | cons c w' =>
    have := pyWords_append_ws (w := c :: w') (by simp) hw a []
    simpa [pyWords, pyWordsAux] using this

lemma mem_takeWhile_sat {p : Char → Bool} {l : List Char} {x : Char}
    (hx : x ∈ l.takeWhile p) : p x = true := by
  induction l with
  | nil => simp [List.takeWhile] at hx
  | cons c rest ih =>
    by_cases hc : p c
    · rw [List.takeWhile_cons_of_pos hc] at hx
      rcases hx with _ | hx
      · exact hc
      · exact ih (by assumption)
    · rw [List.takeWhile_cons_of_neg (by simpa using hc)] at hx
      simp at hx

lemma pyWords_strip (s : List Char) : pyWords (pyStrip s) = pyWords s := by
  have h1 : s = s.takeWhile isPySpace ++ s.dropWhile isPySpace :=
    (List.takeWhile_append_dropWhile isPySpace s).symm
  have h2 : pyWords s = pyWords (s.dropWhile isPySpace) := by
    conv_lhs => rw [h1]
    exact pyWords_ws_left (fun c hc => mem_takeWhile_sat hc) _
  set d := s.dropWhile isPySpace with hd
  have h3 : d = (d.reverse.dropWhile isPySpace).reverse ++ (d.reverse.takeWhile isPySpace).reverse := by
    conv_lhs => rw [← List.reverse_reverse d]
    conv_lhs => rw [← List.takeWhile_append_dropWhile isPySpace d.reverse]
    rw [List.reverse_append]
  have h4 : pyWords ((d.reverse.dropWhile isPySpace).reverse ++ (d.reverse.takeWhile isPySpace).reverse)
      = pyWords ((d.reverse.dropWhile isPySpace).reverse) := by
    refine pyWords_ws_right (fun c hc => ?_) _
    rw [List.mem_reverse] at hc
    exact mem_takeWhile_sat hc
  show pyWords ((d.reverse.dropWhile isPySpace).reverse) = pyWords s
  rw [h2]
  conv_rhs => rw [h3]
  rw [h4]

lemma pyWordsAux_mem (s : List Char) :
    ∀ cur : List Char, (∀ c ∈ cur, isPySpace c = false) →
      ∀ u ∈ pyWordsAux cur s, u ≠ [] ∧ ∀ c ∈ u, isPySpace c = false := by
  induction s with
  | nil =>
    intro cur hcur u hu
    by_cases hc : cur = []
    · simp [pyWordsAux, hc] at hu
    · rw [show pyWordsAux cur [] = [cur.reverse] by simp [pyWordsAux, hc]] at hu
      simp at hu
      subst hu
      exact ⟨by simpa using hc, fun c hc2 => hcur c (by simpa using hc2)⟩
  | cons c rest ih =>
    intro cur hcur u hu
    by_cases hc : isPySpace c
    · by_cases hcur0 : cur = []
      · exact ih [] (by simp) u (by simpa [pyWordsAux, hc, hcur0] using hu)
      · rw [show pyWordsAux cur (c :: rest) = cur.reverse :: pyWordsAux [] rest by
          simp [pyWordsAux, hc, hcur0]] at hu
        rcases List.mem_cons.1 hu with hu | hu
        · subst hu
          exact ⟨by simpa using hcur0, fun x hx => hcur x (by simpa using hx)⟩
        · exact ih [] (by simp) u hu
    · refine ih (c :: cur) ?_ u (by simpa [pyWordsAux, hc] using hu)
      intro x hx
      rcases List.mem_cons.1 hx with rfl | hx
      · simpa using hc
      · exact hcur x hx

lemma pyWords_mem {s u : List Char} (hu : u ∈ pyWords s) :
    u ≠ [] ∧ ∀ c ∈ u, isPySpace c = false :=
  pyWordsAux_mem s [] (by simp) u hu

lemma pyWordsAux_word_run (a : List Char) (ha : ∀ c ∈ a, isPySpace c = false) :
    ∀ cur rest : List Char, pyWordsAux cur (a ++ rest) = pyWordsAux (a.reverse ++ cur) rest := by
  induction a with
  | nil => intro cur rest; simp
  | cons c a' ih =>
    intro cur rest
    have hc : isPySpace c = false := ha c (by simp)
    rw [List.cons_append, show pyWordsAux cur (c :: (a' ++ rest)) = pyWordsAux (c :: cur) (a' ++ rest) by
      simp [pyWordsAux, hc]]
    rw [ih (fun x hx => ha x (by simp [hx])) (c :: cur) rest]
    simp

lemma pyWords_single {s : List Char} (h0 : s ≠ []) (h : ∀ c ∈ s, isPySpace c = false) :
    pyWords s = [s] := by
  have h1 : pyWords s = pyWordsAux [] (s ++ []) := by simp [pyWords]
  rw [h1, pyWordsAux_word_run s h [] []]
  simp [pyWordsAux, h0]

lemma wordsConcat_nil : wordsConcat [] = [] := rfl

lemma wordsConcat_cons (x : List Char) (l : List (List Char)) :
    wordsConcat (x :: l) = pyWords x ++ wordsConcat l := by
  simp [wordsConcat]

lemma wordsConcat_append (a b : List (List Char)) :
    wordsConcat (a ++ b) = wordsConcat a ++ wordsConcat b := by
  simp [wordsConcat]

lemma pyWords_joinSpace (l : List (List Char)) : pyWords (joinSpace l) = wordsConcat l := by
  induction l with
  | nil => rfl
  | cons s ss ih =>
    cases ss with
    | nil => simp [joinSpace, wordsConcat]
    | cons t ss' =>
      have h1 : joinSpace (s :: t :: ss') = s ++ ([' '] ++ joinSpace (t :: ss')) := rfl
      rw [h1, pyWords_append_ws (by simp) (by intro c hc; simp at hc; simp [hc, isPySpace]), ih]
      simp [wordsConcat_cons, List.append_assoc]

lemma wordsConcat_words {l : List (List Char)}
    (h : ∀ u ∈ l, u ≠ [] ∧ ∀ c ∈ u, isPySpace c = false) :
    wordsConcat l = l := by
  induction l with
  | nil => rfl
  | cons u l' ih =>
    rw [wordsConcat_cons, pyWords_single (h u (by simp)).1 (h u (by simp)).2,
      ih (fun x hx => h x (by simp [hx]))]
    rfl

lemma pyWordsAux_replaceCR (s : List Char) : ∀ cur, pyWordsAux cur (replaceCR s) = pyWordsAux cur s := by
  induction s with
  | nil => intro cur; rfl
  | cons c rest ih =>
    intro cur
    by_cases hc : c = '\r'
    · subst hc
      by_cases hcur : cur = [] <;>
        simp [replaceCR, pyWordsAux, show isPySpace '\r' = true by decide,
          show isPySpace '\n' = true by decide, hcur, ih]
    · by_cases hw : isPySpace c <;> by_cases hcur : cur = [] <;>
        simp [replaceCR, pyWordsAux, hc, hw, hcur, ih]

lemma pyWordsAux_replaceCRLF (s : List Char) :
    ∀ cur, pyWordsAux cur (replaceCRLF s) = pyWordsAux cur s := by
  induction s using replaceCRLF.induct with
  | case1 => intro cur; rfl
  | case2 c => intro cur; rfl
  | case3 c c2 rest h ih =>
    obtain ⟨rfl, rfl⟩ := h
    intro cur
    by_cases hcur : cur = [] <;>
      simp [replaceCRLF, pyWordsAux, show isPySpace '\r' = true by decide,
        show isPySpace '\n' = true by decide, hcur, ih]
  | case4 c c2 rest h ih =>
    intro cur
    rw [show replaceCRLF (c :: c2 :: rest) = c :: replaceCRLF (c2 :: rest) by
      simp [replaceCRLF, h]]
    by_cases hw : isPySpace c <;> by_cases hcur : cur = [] <;>
      simp [pyWordsAux, hw, hcur, ih]

lemma pyWords_normalize (t : List Char) : pyWords (normalizeText t) = pyWords t := by
  show pyWordsAux [] (replaceCR (replaceCRLF t)) = pyWordsAux [] t
  rw [pyWordsAux_replaceCR, pyWordsAux_replaceCRLF]

lemma splitNNAux_words (acc s : List Char) :
    wordsConcat (splitNNAux acc s) = pyWords (acc.reverse ++ s) := by
  induction acc, s using splitNNAux.induct with
  | case1 acc =>
    simp [splitNNAux, wordsConcat]
  | case2 acc c =>
    simp [splitNNAux, wordsConcat, List.reverse_cons, List.append_assoc]
  | case3 acc c c2 rest h ih =>
    obtain ⟨rfl, rfl⟩ := h
    rw [show splitNNAux acc ('\n' :: '\n' :: rest) = acc.reverse :: splitNNAux [] rest by
      simp [splitNNAux], wordsConcat_cons, ih]
    have h2 : acc.reverse ++ '\n' :: '\n' :: rest = acc.reverse ++ (['\n', '\n'] ++ rest) := rfl
    rw [h2, pyWords_append_ws (by simp) (by decide)]
    simp
  | case4 acc c c2 rest h ih =>
    rw [show splitNNAux acc (c :: c2 :: rest) = splitNNAux (c :: acc) (c2 :: rest) by
      simp [splitNNAux, h], ih]
    simp [List.reverse_cons, List.append_assoc]

lemma splitNN_words (s : List Char) : wordsConcat (splitNN s) = pyWords s := by
  simpa using splitNNAux_words [] s

lemma sentAux_words (s : List Char) :
    ∀ (mode : Bool) (acc : List Char), (mode = true → acc = []) →
      wordsConcat (sentAux mode acc s) = pyWords (acc.reverse ++ s) := by
  induction s with
  | nil =>
    intro mode acc _
    cases mode <;> simp [sentAux, wordsConcat]
  | cons c rest ih =>
    intro mode acc h
    cases mode with
    | true =>
      have hacc := h rfl
      subst hacc
      by_cases hc : isPySpace c
      · rw [show sentAux true [] (c :: rest) = sentAux true [] rest by simp [sentAux, hc],
          ih true [] (fun _ => rfl)]
        show pyWords rest = pyWords (([] : List Char).reverse ++ c :: rest)
        have h2 : ([] : List Char).reverse ++ c :: rest = [c] ++ rest := rfl
        rw [h2, pyWords_ws_left (by intro x hx; simp at hx; simp [hx, hc])]
      · rw [show sentAux true [] (c :: rest) = sentAux false [c] rest by simp [sentAux, hc],
          ih false [c] (by simp)]
        rfl
    | false =>
      by_cases hcp : isPySpace c && headPunct acc
      · rw [show sentAux false acc (c :: rest) = acc.reverse :: sentAux true [] rest by
          simp [sentAux, hcp], wordsConcat_cons, ih true [] (fun _ => rfl)]
        have hc : isPySpace c = true := (Bool.and_eq_true_iff.1 hcp).1
        have h2 : acc.reverse ++ c :: rest = acc.reverse ++ ([c] ++ rest) := rfl
        rw [h2, pyWords_append_ws (by simp) (by intro x hx; simp at hx; simp [hx, hc])]
        simp
      · rw [show sentAux false acc (c :: rest) = sentAux false (c :: acc) rest by
          simp [sentAux, hcp], ih false (c :: acc) (by simp)]
        simp [List.reverse_cons, List.append_assoc]

lemma wordsConcat_filter_ne (l : List (List Char)) :
    wordsConcat (l.filter (fun s => decide (s ≠ []))) = wordsConcat l := by
  induction l with
  | nil => rfl
  | cons x l' ih =>
    by_cases hx : x = []
    · subst hx
      rw [show List.filter (fun s => decide (s ≠ [])) ([] :: l')
            = List.filter (fun s => decide (s ≠ [])) l' from by
          rw [List.filter_cons]; simp]
      rw [ih, wordsConcat_cons]
      simp [pyWords, pyWordsAux]
    · rw [show List.filter (fun s => decide (s ≠ [])) (x :: l')
            = x :: List.filter (fun s => decide (s ≠ [])) l' from by
          rw [List.filter_cons]; simp [hx]]
      rw [wordsConcat_cons, wordsConcat_cons, ih]

lemma wordsConcat_map_strip (l : List (List Char)) :
    wordsConcat (l.map pyStrip) = wordsConcat l := by
  induction l with
  | nil => rfl
  | cons x l' ih =>
    simp [wordsConcat_cons, pyWords_strip, ih]

lemma sentencesOfPara_words (p : List Char) : wordsConcat (sentencesOfPara p) = pyWords p := by
  unfold sentencesOfPara
  rw [wordsConcat_filter_ne, wordsConcat_map_strip]
  simpa [sentSplit] using sentAux_words p false [] (by simp)

lemma paragraphsOf_words (t : List Char) : wordsConcat (paragraphsOf t) = pyWords t := by
  unfold paragraphsOf
  rw [wordsConcat_filter_ne, wordsConcat_map_strip, splitNN_words, pyWords_normalize]

lemma wordsConcat_flatten (L : List (List (List Char))) :
    wordsConcat L.flatten = (L.map wordsConcat).flatten := by
  induction L with
  | nil => rfl
  | cons x L' ih => simp [wordsConcat_append, ih]

lemma allSentences_words (t : List Char) : wordsConcat (allSentencesOf t) = pyWords t := by
  unfold allSentencesOf
  rw [wordsConcat_flatten, List.map_map]
  have h : (paragraphsOf t).map (wordsConcat ∘ sentencesOfPara) = (paragraphsOf t).map pyWords :=
    List.map_congr_left (fun p _ => sentencesOfPara_words p)
  rw [h]
  simpa [wordsConcat] using paragraphsOf_words t

lemma pyWords_eq_nil_iff (s : List Char) : pyWords s = [] ↔ ∀ c ∈ s, isPySpace c = true := by
  unfold pyWords
  induction s with
  | nil => simp [pyWordsAux]
  | cons c rest ih =>
    by_cases hc : isPySpace c
    · rw [show pyWordsAux [] (c :: rest) = pyWordsAux [] rest by simp [pyWordsAux, hc]]
      simp only [List.mem_cons]
      constructor
      · intro h x hx
        rcases hx with rfl | hx
        · exact hc
        · exact (ih.1 h) x hx
      · intro h
        exact ih.2 (fun x hx => h x (Or.inr hx))
    · rw [show pyWordsAux [] (c :: rest) = pyWordsAux [c] rest by simp [pyWordsAux, hc]]
      constructor
      · intro h
        exact absurd h (pyWordsAux_ne_nil (by simp) rest)
      · intro h
        exact absurd (h c (by simp)) (by simpa using hc)

lemma pyStrip_eq_nil_iff (s : List Char) : pyStrip s = [] ↔ ∀ c ∈ s, isPySpace c = true := by
  constructor
  · intro h
    have h2 : pyWords s = [] := by
      rw [← pyWords_strip s, h]
      rfl
    exact (pyWords_eq_nil_iff s).1 h2
  · intro h
    have h2 : s.dropWhile isPySpace = [] := List.dropWhile_eq_nil_iff.2 (fun c hc => by
      simpa using h c hc)
    simp [pyStrip, h2]

/-! ## Window lemmas -/

lemma windowsF_nil {α : Type} (fuel k : Nat) : windowsF (α := α) fuel k [] = [] := by
  cases fuel <;> rfl

lemma windowsF_cons {α : Type} (fuel k : Nat) (l : List α) (h : l ≠ []) :
    windowsF (fuel + 1) k l = l.take k :: windowsF fuel k (l.drop k) := by
  cases l with
  | nil => exact absurd rfl h
  | cons c rest => rfl

lemma windowsF_flatten {α : Type} :
    ∀ (fuel k : Nat) (l : List α), 1 ≤ k → l.length ≤ fuel →
      (windowsF fuel k l).flatten = l := by
  intro fuel
  induction fuel with
  | zero =>
    intro k l _ hl
    have : l = [] := List.eq_nil_of_length_eq_zero (Nat.le_zero.1 hl)
    subst this
    rfl
  | succ fuel ih =>
    intro k l hk hl
    cases l with
    | nil => rfl
    | cons c rest =>
      rw [windowsF_cons fuel k (c :: rest) (by simp)]
      have hdrop : ((c :: rest).drop k).length ≤ fuel := by
        rw [List.length_drop]
        simp only [List.length_cons] at hl ⊢
        omega
      rw [List.flatten_cons, ih k _ hk hdrop, List.take_append_drop]

lemma windowsF_mem_length {α : Type} :
    ∀ (fuel k : Nat) (l : List α) (w : List α), w ∈ windowsF fuel k l → w.length ≤ k := by
  intro fuel
  induction fuel with
  | zero => intro k l w hw; simp [windowsF] at hw
  | succ fuel ih =>
    intro k l w hw
    cases l with
    | nil => simp [windowsF] at hw
    | cons c rest =>
      rw [windowsF_cons fuel k (c :: rest) (by simp)] at hw
      rcases List.mem_cons.1 hw with rfl | hw
      · simpa using List.length_take_le k (c :: rest)
      · exact ih k _ w hw

lemma windowsF_ne_nil {α : Type} (fuel k : Nat) (l : List α) (h : l ≠ [])
    (hl : l.length ≤ fuel) : windowsF fuel k l ≠ [] := by
  cases fuel with
  | zero =>
    have : l = [] := List.eq_nil_of_length_eq_zero (Nat.le_zero.1 hl)
    exact absurd this h
  | succ fuel =>
    rw [windowsF_cons fuel k l h]
    simp

lemma windowsF_dropLast_length {α : Type} :
    ∀ (fuel k : Nat) (l : List α), 1 ≤ k → l.length ≤ fuel →
      ∀ w ∈ (windowsF fuel k l).dropLast, w.length = k := by
  intro fuel
  induction fuel with
  | zero => intro k l _ _ w hw; simp [windowsF] at hw
  | succ fuel ih =>
    intro k l hk hl w hw
    cases l with
    | nil => simp [windowsF] at hw
    | cons c rest =>
      rw [windowsF_cons fuel k (c :: rest) (by simp)] at hw
      by_cases hdrop : (c :: rest).drop k = []
      · rw [hdrop, windowsF_nil] at hw
        simp at hw
      · have hfl : ((c :: rest).drop k).length ≤ fuel := by
          rw [List.length_drop]
          simp only [List.length_cons] at hl ⊢
          omega
        have hne := windowsF_ne_nil fuel k _ hdrop hfl
        rw [List.dropLast_cons_of_ne_nil hne] at hw
        rcases List.mem_cons.1 hw with rfl | hw
        · have hlen : k < (c :: rest).length := by
            by_contra hcon
            exact hdrop (List.drop_eq_nil_of_le (by omega))
          rw [List.length_take]
          omega
        · exact ih k _ hk hfl w hw

lemma windowsF_length {α : Type} :
    ∀ (fuel k : Nat) (l : List α), 1 ≤ k → l.length ≤ fuel →
      (windowsF fuel k l).length = (l.length + k - 1) / k := by
  intro fuel
  induction fuel with
  | zero =>
    intro k l hk hl
    have h0 : l = [] := List.eq_nil_of_length_eq_zero (Nat.le_zero.1 hl)
    subst h0
    rw [windowsF_nil]
    have h1 : (([] : List α).length + k - 1) / k = 0 := Nat.div_eq_of_lt (by simp; omega)
    rw [h1]
    rfl
  | succ fuel ih =>
    intro k l hk hl
    cases l with
    | nil =>
      rw [windowsF_nil]
      have h1 : (([] : List α).length + k - 1) / k = 0 := Nat.div_eq_of_lt (by simp; omega)
      rw [h1]
      rfl
    | cons c rest =>
      rw [windowsF_cons fuel k (c :: rest) (by simp)]
      have hfl : ((c :: rest).drop k).length ≤ fuel := by
        rw [List.length_drop]
        simp only [List.length_cons] at hl ⊢
        omega
      rw [List.length_cons, ih k _ hk hfl, List.length_drop]
      set n := (c :: rest).length with hn
      have hn1 : 1 ≤ n := by simp [hn]
      by_cases hnk : n ≤ k
      · have h1 : n - k + k - 1 = k - 1 := by omega
        have h2 : n + k - 1 = (n - 1) + k := by omega
        rw [h1, h2, Nat.add_div_right _ (by omega), Nat.div_eq_of_lt (show k - 1 < k by omega),
          Nat.div_eq_of_lt (show n - 1 < k by omega)]
      · have h1 : n - k + k - 1 = n - 1 := by omega
        have h2 : n + k - 1 = (n - 1) + k := by omega
        rw [h1, h2, Nat.add_div_right _ (by omega)]

lemma windows_flatten {α : Type} (k : Nat) (l : List α) (hk : 1 ≤ k) :
    (windows k l).flatten = l :=
  windowsF_flatten l.length k l hk (le_refl _)

lemma windows_mem_length {α : Type} (k : Nat) (l : List α) (w : List α)
    (hw : w ∈ windows k l) : w.length ≤ k :=
  windowsF_mem_length l.length k l w hw

lemma windows_dropLast_length {α : Type} (k : Nat) (l : List α) (hk : 1 ≤ k) :
    ∀ w ∈ (windows k l).dropLast, w.length = k :=
  windowsF_dropLast_length l.length k l hk (le_refl _)

lemma windows_length {α : Type} (k : Nat) (l : List α) (hk : 1 ≤ k) :
    (windows k l).length = (l.length + k - 1) / k :=
  windowsF_length l.length k l hk (le_refl _)

/-! ## Invariants of the accumulation loop -/

lemma splitStep_skip (m : Nat) (σ : SplitState) (s : List Char)
    (h : (pyWords s).length = 0) : splitStep m σ s = σ := by
  simp only [splitStep]
  rw [if_pos h]

lemma splitStep_big (m : Nat) (σ : SplitState) (s : List Char)
    (h : (pyWords s).length > m) :
    splitStep m σ s =
      ⟨(if σ.cur = [] then σ.chunks else σ.chunks ++ [joinSpace σ.cur])
          ++ (windows m (pyWords s)).map joinSpace, [], 0⟩ := by
  simp only [splitStep]
  rw [if_neg (by omega), if_pos h]

lemma splitStep_close (m : Nat) (σ : SplitState) (s : List Char)
    (h0 : (pyWords s).length ≠ 0) (h1 : ¬(pyWords s).length > m)
    (h2 : σ.wc + (pyWords s).length > m ∧ σ.cur ≠ []) :
    splitStep m σ s = ⟨σ.chunks ++ [joinSpace σ.cur], [s], (pyWords s).length⟩ := by
  simp only [splitStep]
  rw [if_neg h0, if_neg h1, if_pos h2]

lemma splitStep_acc (m : Nat) (σ : SplitState) (s : List Char)
    (h0 : (pyWords s).length ≠ 0) (h1 : ¬(pyWords s).length > m)
    (h2 : ¬(σ.wc + (pyWords s).length > m ∧ σ.cur ≠ [])) :
    splitStep m σ s = ⟨σ.chunks, σ.cur ++ [s], σ.wc + (pyWords s).length⟩ := by
  simp only [splitStep]
  rw [if_neg h0, if_neg h1, if_neg h2]

lemma wordsConcat_singleton (x : List Char) : wordsConcat [x] = pyWords x := by
  simp [wordsConcat]

lemma splitStep_one (m : Nat) (hm : 1 ≤ m) (σ : SplitState) (s : List Char)
    (hA : σ.wc = (wordsConcat σ.cur).length)
    (hB : σ.wc ≤ m)
    (hC : ∀ ch ∈ σ.chunks, (pyWords ch).length ≤ m) :
    (splitStep m σ s).wc = (wordsConcat (splitStep m σ s).cur).length
    ∧ (splitStep m σ s).wc ≤ m
    ∧ (∀ ch ∈ (splitStep m σ s).chunks, (pyWords ch).length ≤ m)
    ∧ wordsConcat (splitStep m σ s).chunks ++ wordsConcat (splitStep m σ s).cur
        = wordsConcat σ.chunks ++ wordsConcat σ.cur ++ pyWords s := by
  by_cases h0 : (pyWords s).length = 0
  · have hnil : pyWords s = [] := List.eq_nil_of_length_eq_zero h0
    rw [splitStep_skip m σ s h0, hnil, List.append_nil]
    exact ⟨hA, hB, hC, rfl⟩
  · by_cases h1 : (pyWords s).length > m
    · rw [splitStep_big m σ s h1]
      refine ⟨by simp [wordsConcat], by simp, ?_, ?_⟩
      · intro ch hch
        simp only at hch
        rcases List.mem_append.1 hch with hch | hch
        · by_cases hcur : σ.cur = []
          · rw [if_pos hcur] at hch
            exact hC ch hch
          · rw [if_neg hcur] at hch
            rcases List.mem_append.1 hch with hch | hch
            · exact hC ch hch
            · simp only [List.mem_singleton] at hch
              subst hch
              rw [pyWords_joinSpace]
              omega
        · rcases List.mem_map.1 hch with ⟨w, hw, rfl⟩
          have hwprops : ∀ u ∈ w, u ≠ [] ∧ ∀ c ∈ u, isPySpace c = false := by
            intro u hu
            have humem : u ∈ pyWords s := by
              rw [← windows_flatten m (pyWords s) hm]
              exact List.mem_flatten.2 ⟨w, hw, hu⟩
            exact pyWords_mem humem
          rw [pyWords_joinSpace, wordsConcat_words hwprops]
          exact windows_mem_length m (pyWords s) w hw
      · have hwin : wordsConcat ((windows m (pyWords s)).map joinSpace) = pyWords s := by
          have h2 : ((windows m (pyWords s)).map joinSpace).map pyWords
              = windows m (pyWords s) := by
            rw [List.map_map]
            have h3 : List.map (pyWords ∘ joinSpace) (windows m (pyWords s))
                = List.map id (windows m (pyWords s)) := by
              refine List.map_congr_left (fun w hw => ?_)
              have hwprops : ∀ u ∈ w, u ≠ [] ∧ ∀ c ∈ u, isPySpace c = false := by
                intro u hu
                have humem : u ∈ pyWords s := by
                  rw [← windows_flatten m (pyWords s) hm]
                  exact List.mem_flatten.2 ⟨w, hw, hu⟩
                exact pyWords_mem humem
              show pyWords (joinSpace w) = w
              rw [pyWords_joinSpace, wordsConcat_words hwprops]
            rw [h3, List.map_id]
          show (((windows m (pyWords s)).map joinSpace).map pyWords).flatten = pyWords s
          rw [h2, windows_flatten m (pyWords s) hm]
        simp only [wordsConcat_append, hwin]
        by_cases hcur : σ.cur = []
        · rw [if_pos hcur, hcur]
          simp [wordsConcat]
        · rw [if_neg hcur, wordsConcat_append, wordsConcat_singleton, pyWords_joinSpace]
          simp [wordsConcat, List.append_assoc]
    · by_cases h2 : σ.wc + (pyWords s).length > m ∧ σ.cur ≠ []
      · rw [splitStep_close m σ s h0 h1 h2]
        refine ⟨by simp [wordsConcat_singleton], by show (pyWords s).length ≤ m; omega, ?_, ?_⟩
        · intro ch hch
          simp only at hch
          rcases List.mem_append.1 hch with hch | hch
          · exact hC ch hch
          · simp only [List.mem_singleton] at hch
            subst hch
            rw [pyWords_joinSpace]
            omega
        · simp only [wordsConcat_append, wordsConcat_singleton, pyWords_joinSpace]
      · rw [splitStep_acc m σ s h0 h1 h2]
        have hwc : σ.wc + (pyWords s).length ≤ m := by
          rcases not_and_or.1 h2 with h3 | h3
          · omega
          · have hcur : σ.cur = [] := not_not.1 h3
            have hz : σ.wc = 0 := by
              rw [hA, hcur]
              rfl
            omega
        refine ⟨?_, by simpa using hwc, hC, ?_⟩
        · simp only [hA, wordsConcat_append, wordsConcat_singleton]
          simp
        · simp only [wordsConcat_append, wordsConcat_singleton]
          simp [List.append_assoc]

lemma splitFold_inv (m : Nat) (hm : 1 ≤ m) :
    ∀ (ss : List (List Char)) (σ : SplitState),
      σ.wc = (wordsConcat σ.cur).length → σ.wc ≤ m →
      (∀ ch ∈ σ.chunks, (pyWords ch).length ≤ m) →
      ((ss.foldl (splitStep m) σ).wc = (wordsConcat (ss.foldl (splitStep m) σ).cur).length
       ∧ (ss.foldl (splitStep m) σ).wc ≤ m
       ∧ (∀ ch ∈ (ss.foldl (splitStep m) σ).chunks, (pyWords ch).length ≤ m)
       ∧ wordsConcat (ss.foldl (splitStep m) σ).chunks ++ wordsConcat (ss.foldl (splitStep m) σ).cur
           = wordsConcat σ.chunks ++ wordsConcat σ.cur ++ wordsConcat ss) := by
  intro ss
  induction ss with
  | nil =>
    intro σ hA hB hC
    exact ⟨hA, hB, hC, by simp [wordsConcat]⟩
  | cons s ss' ih =>
    intro σ hA hB hC
    obtain ⟨h1, h2, h3, h4⟩ := splitStep_one m hm σ s hA hB hC
    obtain ⟨g1, g2, g3, g4⟩ := ih (splitStep m σ s) h1 h2 h3
    refine ⟨g1, g2, g3, ?_⟩
    rw [List.foldl_cons] at *
    rw [g4, h4, wordsConcat_cons]
    simp [List.append_assoc]

lemma split_text_words (t : List Char) (m : Nat) (hm : 1 ≤ m) :
    wordsConcat (split_text t m) = pyWords t := by
  obtain ⟨h1, h2, h3, h4⟩ :=
    splitFold_inv m hm (allSentencesOf t) ⟨[], [], 0⟩ rfl (by show 0 ≤ m; omega) (by simp)
  have hfs : splitFinal t m = (allSentencesOf t).foldl (splitStep m) ⟨[], [], 0⟩ := rfl
  have hsplit : split_text t m = (splitFinal t m).chunks ++
      (if (splitFinal t m).cur = [] then [] else [joinSpace (splitFinal t m).cur]) := rfl
  rw [hsplit, wordsConcat_append]
  by_cases hcur : (splitFinal t m).cur = []
  · rw [if_pos hcur]
    have h5 : wordsConcat (splitFinal t m).cur = [] := by
      rw [hcur]
      rfl
    have h6 := h4
    rw [← hfs] at h6
    rw [h5, List.append_nil] at h6
    rw [show wordsConcat [] = ([] : List (List Char)) from rfl, List.append_nil]
    rw [h6]
    simpa [wordsConcat] using allSentences_words t
  · rw [if_neg hcur, wordsConcat_singleton, pyWords_joinSpace]
    rw [hfs, h4]
    simpa [wordsConcat] using allSentences_words t

/-- Claim C1: for every input text and every `max_words ≥ 1`, the word
sequence obtained by concatenating, in order, the chunks returned by
`_split_text` equals the word sequence of the trimmed original input —
no word dropped, duplicated or reordered (whitespace normalization
aside); trimming itself does not change the word sequence. -/
theorem claim_C1_chunk_coverage (t : List Char) (m : Nat) (hm : 1 ≤ m) :
    wordsConcat (split_text t m) = pyWords (pyStrip t)
    ∧ wordsConcat (split_text t m) = pyWords t := by
  have h := split_text_words t m hm
  exact ⟨by rw [h, pyWords_strip], h⟩

theorem claim_C1_witness :
    1 ≤ 2 ∧ wordsConcat (split_text "Hi. There world.".toList 2)
      = pyWords (pyStrip "Hi. There world.".toList) :=
  ⟨by decide, (claim_C1_chunk_coverage "Hi. There world.".toList 2 (by decide)).1⟩

/-- Claim C2: for every input text and every `max_words ≥ 1`, every chunk
returned by `_split_text` has word count at most `max_words`; and when a
single sentence exceeds `max_words` words, the loop step first flushes
the accumulated chunk and then emits the sentence's consecutive
word windows of exactly `max_words` words (final window possibly
shorter) as chunks, in order. -/
theorem claim_C2_chunk_size_bound (t : List Char) (m : Nat) (hm : 1 ≤ m) :
    (∀ ch ∈ split_text t m, (pyWords ch).length ≤ m)
    ∧ (∀ (σ : SplitState) (s : List Char), m < (pyWords s).length →
        splitStep m σ s =
          ⟨(if σ.cur = [] then σ.chunks else σ.chunks ++ [joinSpace σ.cur])
              ++ (windows m (pyWords s)).map joinSpace, [], 0⟩
        ∧ (windows m (pyWords s)).flatten = pyWords s
        ∧ (∀ w ∈ (windows m (pyWords s)).dropLast, w.length = m)
        ∧ (∀ w ∈ windows m (pyWords s), w.length ≤ m)) := by
  obtain ⟨h1, h2, h3, h4⟩ :=
    splitFold_inv m hm (allSentencesOf t) ⟨[], [], 0⟩ rfl (by show 0 ≤ m; omega) (by simp)
  constructor
  · intro ch hch
    have hsplit : split_text t m = (splitFinal t m).chunks ++
        (if (splitFinal t m).cur = [] then [] else [joinSpace (splitFinal t m).cur]) := rfl
    rw [hsplit] at hch
    rcases List.mem_append.1 hch with hch | hch
    · exact h3 ch hch
    · by_cases hcur : (splitFinal t m).cur = []
      · rw [if_pos hcur] at hch
        simp at hch
      · rw [if_neg hcur] at hch
        simp only [List.mem_singleton] at hch
        subst hch
        have hfs : splitFinal t m = (allSentencesOf t).foldl (splitStep m) ⟨[], [], 0⟩ := rfl
        rw [pyWords_joinSpace, hfs, ← h1]
        exact h2
  · intro σ s hs
    exact ⟨splitStep_big m σ s hs, windows_flatten m _ hm,
      windows_dropLast_length m _ hm, fun w hw => windows_mem_length m _ w hw⟩

theorem claim_C2_witness :
    1 ≤ 2 ∧ ∀ ch ∈ split_text "a b c d e. f g".toList 2, (pyWords ch).length ≤ 2 :=
  ⟨by decide, (claim_C2_chunk_size_bound "a b c d e. f g".toList 2 (by decide)).1⟩

lemma mem_allSentences_ne (t : List Char) : ∀ s ∈ allSentencesOf t, pyWords s ≠ [] := by
  intro s hs
  unfold allSentencesOf at hs
  rcases List.mem_flatten.1 hs with ⟨l, hl, hsl⟩
  rcases List.mem_map.1 hl with ⟨p, hp, rfl⟩
  unfold sentencesOfPara at hsl
  obtain ⟨hmem1, hmem2⟩ := List.mem_filter.1 hsl
  have hne : s ≠ [] := by simpa using hmem2
  rcases List.mem_map.1 hmem1 with ⟨x, hx, rfl⟩
  intro hcon
  rw [pyWords_strip] at hcon
  exact hne ((pyStrip_eq_nil_iff x).2 ((pyWords_eq_nil_iff x).1 hcon))

lemma splitFold_no_flush (m : Nat) :
    ∀ (ss : List (List Char)) (σ : SplitState),
      (∀ s ∈ ss, pyWords s ≠ []) →
      σ.wc = (wordsConcat σ.cur).length →
      σ.wc + (wordsConcat ss).length ≤ m →
      ss.foldl (splitStep m) σ = ⟨σ.chunks, σ.cur ++ ss, σ.wc + (wordsConcat ss).length⟩ := by
  intro ss
  induction ss with
  | nil =>
    intro σ hne hA hle
    cases σ
    simp [wordsConcat]
  | cons s ss' ih =>
    intro σ hne hA hle
    have hsne : pyWords s ≠ [] := hne s (by simp)
    have hn1 : 1 ≤ (pyWords s).length := List.length_pos.2 hsne
    have htot : (wordsConcat (s :: ss')).length
        = (pyWords s).length + (wordsConcat ss').length := by
      rw [wordsConcat_cons]
      simp
    rw [htot] at hle
    have h0 : (pyWords s).length ≠ 0 := by omega
    have h1 : ¬(pyWords s).length > m := by omega
    have h2 : ¬(σ.wc + (pyWords s).length > m ∧ σ.cur ≠ []) := by
      rw [not_and_or]
      left
      omega
    rw [List.foldl_cons, splitStep_acc m σ s h0 h1 h2,
      ih ⟨σ.chunks, σ.cur ++ [s], σ.wc + (pyWords s).length⟩ (fun x hx => hne x (by simp [hx]))
        (by simp only [hA, wordsConcat_append, wordsConcat_singleton]; simp)
        (by show σ.wc + (pyWords s).length + (wordsConcat ss').length ≤ m; omega)]
    congr 1
    · simp
    · show σ.wc + (pyWords s).length + (wordsConcat ss').length
        = σ.wc + (wordsConcat (s :: ss')).length
      rw [htot]
      omega

/-- The claim C8 as stated is false: the one-character text consisting of
a single space is a non-empty input, yet `_split_text` returns no
chunks for it. -/
theorem claim_C8_counterexample :
    " ".toList ≠ [] ∧ split_text " ".toList 100 = [] := by decide

/-- Claim C8 (amended): for every `max_words ≥ 1`, an input containing
at least one non-whitespace character (non-empty after trimming) yields
at least one chunk; an input of `W` words with `1 ≤ W ≤ max_words` and
no paragraph break yields exactly one chunk; and an input that is a
single unbroken sentence yields at least `⌈W / max_words⌉` chunks. -/
theorem claim_C8_amended (t : List Char) (m : Nat) (hm : 1 ≤ m) :
    (pyStrip t ≠ [] → 1 ≤ (split_text t m).length)
    ∧ (1 ≤ (pyWords t).length → (pyWords t).length ≤ m →
        hasNN (normalizeText t) = false → (split_text t m).length = 1)
    ∧ (∀ s, allSentencesOf t = [s] →
        ((pyWords t).length + m - 1) / m ≤ (split_text t m).length) := by
  refine ⟨?_, ?_, ?_⟩
  · intro hne
    have hw : pyWords t ≠ [] := fun hcon =>
      hne ((pyStrip_eq_nil_iff t).2 ((pyWords_eq_nil_iff t).1 hcon))
    have hcov := split_text_words t m hm
    by_contra hcon
    have hz : split_text t m = [] := List.eq_nil_of_length_eq_zero (by omega)
    rw [hz] at hcov
    exact hw (by simpa [wordsConcat] using hcov.symm)
  · intro hW1 hWm _
    have hall : ∀ s ∈ allSentencesOf t, pyWords s ≠ [] := mem_allSentences_ne t
    have htot : (wordsConcat (allSentencesOf t)).length = (pyWords t).length := by
      rw [allSentences_words]
    have hfold := splitFold_no_flush m (allSentencesOf t) ⟨[], [], 0⟩ hall rfl
      (by show 0 + (wordsConcat (allSentencesOf t)).length ≤ m; rw [htot]; omega)
    have hst : splitFinal t m
        = ⟨[], [] ++ allSentencesOf t, 0 + (wordsConcat (allSentencesOf t)).length⟩ := hfold
    have hane : allSentencesOf t ≠ [] := by
      intro hnil
      rw [hnil] at htot
      simp [wordsConcat] at htot
      omega
    have hsplit : split_text t m = (splitFinal t m).chunks ++
        (if (splitFinal t m).cur = [] then [] else [joinSpace (splitFinal t m).cur]) := rfl
    rw [hsplit, hst]
    simp [hane]
  · intro s hseq
    have hsne : pyWords s ≠ [] := mem_allSentences_ne t s (by rw [hseq]; simp)
    have hW : pyWords t = pyWords s := by
      have h := allSentences_words t
      rw [hseq] at h
      simpa [wordsConcat] using h.symm
    have hst : splitFinal t m = splitStep m ⟨[], [], 0⟩ s := by
      show (allSentencesOf t).foldl (splitStep m) ⟨[], [], 0⟩ = _
      rw [hseq]
      rfl
    have hsplit : split_text t m = (splitFinal t m).chunks ++
        (if (splitFinal t m).cur = [] then [] else [joinSpace (splitFinal t m).cur]) := rfl
    have hn1 : 1 ≤ (pyWords s).length := List.length_pos.2 hsne
    by_cases hbig : (pyWords s).length > m
    · rw [hsplit, hst, splitStep_big m ⟨[], [], 0⟩ s hbig]
      simp only [if_pos rfl]
      rw [hW]
      simp [windows_length m (pyWords s) hm]
    · rw [hsplit, hst, splitStep_acc m ⟨[], [], 0⟩ s (by omega) (by omega) (by simp)]
      simp only []
      rw [hW]
      have hlt : ((pyWords s).length + m - 1) / m < 2 := by
        rw [Nat.div_lt_iff_lt_mul (by omega)]
        omega
      simp
      omega

theorem claim_C8_witness :
    1 ≤ 5 ∧ 1 ≤ (split_text "Hello world.".toList 5).length :=
  ⟨by decide, (claim_C8_amended "Hello world.".toList 5 (by decide)).1 (by decide)⟩

/-! ## Synthesis-driver lemmas -/

lemma chunkStep_eq (stem suffix : List Char) (ex : List Char → Option ℚ) (mt : ℚ)
    (gen : List (List Char)) (ic : Nat × List Char) :
    chunkStep stem suffix ex mt gen ic
      = if needsRegen ex mt (chunkOutName stem suffix ic.1) = true
        then gen ++ [chunkOutName stem suffix ic.1] else gen := by
  unfold chunkStep needsRegen
  cases hex : ex (chunkOutName stem suffix ic.1) with
  | none => simp [hex]
  | some am =>
    by_cases hle : mt ≤ am
    · have h2 : ¬am < mt := not_lt.2 hle
      simp [hex, hle, h2]
    · have h2 : am < mt := lt_of_not_le hle
      simp [hex, hle, h2]

lemma chunkFold_filter (stem suffix : List Char) (ex : List Char → Option ℚ) (mt : ℚ) :
    ∀ (pairs : List (Nat × List Char)) (gen : List (List Char)),
      pairs.foldl (chunkStep stem suffix ex mt) gen
      = gen ++ (pairs.map (fun ic => chunkOutName stem suffix ic.1)).filter (needsRegen ex mt) := by
  intro pairs
  induction pairs with
  | nil => intro gen; simp
  | cons ic rest ih =>
    intro gen
    rw [List.foldl_cons, List.map_cons, List.filter_cons, chunkStep_eq]
    by_cases hr : needsRegen ex mt (chunkOutName stem suffix ic.1) = true
    · rw [if_pos hr, if_pos hr, ih]
      simp
    · rw [if_neg hr, if_neg hr, ih]

lemma enumFrom_outNames (stem suffix : List Char) (chunks : List (List Char)) :
    (List.enumFrom 1 chunks).map (fun ic => chunkOutName stem suffix ic.1)
      = (List.range chunks.length).map (fun i => chunkOutName stem suffix (i + 1)) := by
  have h1 : (List.enumFrom 1 chunks).map (fun ic => chunkOutName stem suffix ic.1)
      = ((List.enumFrom 1 chunks).map Prod.fst).map (chunkOutName stem suffix) := by
    rw [List.map_map]
    rfl
  rw [h1, List.enumFrom_map_fst, List.range'_eq_map_range, List.map_map]
  refine List.map_congr_left (fun i _ => ?_)
  show chunkOutName stem suffix (1 + i) = chunkOutName stem suffix (i + 1)
  rw [Nat.add_comm]

lemma processTxt_eq_filter (suffix : List Char) (ex : List Char → Option ℚ) (t : TxtFile) :
    processTxt suffix ex t
      = (plannedOutputs t.stem suffix (split_text (pyStrip t.text) 100)).filter
          (needsRegen ex t.mtime) := by
  simp only [processTxt, plannedOutputs]
  by_cases hb : pyStrip t.text = []
  · rw [if_pos hb, hb]
    have h0 : split_text ([] : List Char) 100 = [] := rfl
    rw [h0]
    simp
  · rw [if_neg hb]
    by_cases h1 : (split_text (pyStrip t.text) 100).length = 1
    · rw [if_pos h1, if_pos h1]
      cases hex : ex (t.stem ++ suffix) with
      | none => simp [needsRegen, hex]
      | some am =>
        by_cases hle : t.mtime ≤ am
        · have h2 : ¬am < t.mtime := not_lt.2 hle
          simp [needsRegen, hex, hle, h2]
        · have h2 : am < t.mtime := lt_of_not_le hle
          simp [needsRegen, hex, hle, h2]
    · rw [if_neg h1, if_neg h1, chunkFold_filter, enumFrom_outNames]
      rfl

lemma synthDir_flatten (suffix : List Char) (ex : List Char → Option ℚ) :
    ∀ (txts : List TxtFile) (gen : List (List Char)),
      txts.foldl (fun g t => g ++ processTxt suffix ex t) gen
        = gen ++ (txts.map (processTxt suffix ex)).flatten := by
  intro txts
  induction txts with
  | nil => intro gen; simp
  | cons t rest ih =>
    intro gen
    rw [List.foldl_cons, ih]
    simp

/-- Claim C7: `synthesize_directory` considers, per text file, exactly
the planned output names; an output already present whose source text is
not newer is skipped and absent from the returned list, and otherwise
(output missing, or text strictly newer) the output is generated and
appended; the check is per output file, and a missing output means
"regenerate", never an error. -/
theorem claim_C7_skip_rule (suffix : List Char) (ex : List Char → Option ℚ) (t : TxtFile) :
    processTxt suffix ex t
      = (plannedOutputs t.stem suffix (split_text (pyStrip t.text) 100)).filter
          (needsRegen ex t.mtime)
    ∧ (∀ out, out ∈ processTxt suffix ex t ↔
        out ∈ plannedOutputs t.stem suffix (split_text (pyStrip t.text) 100)
        ∧ needsRegen ex t.mtime out = true)
    ∧ (∀ out, ex out = none → needsRegen ex t.mtime out = true)
    ∧ (∀ out am, ex out = some am →
        (needsRegen ex t.mtime out = true ↔ am < t.mtime))
    ∧ (∀ txts, synthesize_directory txts ex suffix
        = (txts.map (processTxt suffix ex)).flatten) := by
  refine ⟨processTxt_eq_filter suffix ex t, ?_, ?_, ?_, ?_⟩
  · intro out
    rw [processTxt_eq_filter suffix ex t]
    exact List.mem_filter
  · intro out hex
    simp [needsRegen, hex]
  · intro out am hex
    simp [needsRegen, hex]
  · intro txts
    exact (synthDir_flatten suffix ex txts []).trans (by simp)

set_option maxRecDepth 10000 in
/-- Claim C6: for a text file with stem `S`, a single-chunk result is
written to `S ++ suffix` and a `k`-chunk result (`k > 1`) to
`S-01 ++ suffix, …, S-kk ++ suffix` with 2-digit zero-padded 1-based
indices in chunk order; for example, the 201-word single-sentence file
`chapter1.txt` yields `chapter1-01.wav`, `chapter1-02.wav`,
`chapter1-03.wav`. -/
theorem claim_C6_naming (suffix : List Char) (t : TxtFile) :
    processTxt suffix (fun _ => none) t
      = (if (split_text (pyStrip t.text) 100).length = 1
         then [t.stem ++ suffix]
         else (List.range (split_text (pyStrip t.text) 100).length).map
            (fun i => t.stem ++ '-' :: (fmt02 (i + 1) ++ suffix)))
    ∧ processTxt ".wav".toList (fun _ => none)
        ⟨ "chapter1".toList, joinSpace (List.replicate 201 ['w']), 0⟩
      = [ "chapter1-01.wav".toList, "chapter1-02.wav".toList, "chapter1-03.wav".toList] := by
  constructor
  · rw [processTxt_eq_filter suffix (fun _ => none) t]
    have hall : List.filter (needsRegen (fun _ => none) t.mtime)
        (plannedOutputs t.stem suffix (split_text (pyStrip t.text) 100))
        = plannedOutputs t.stem suffix (split_text (pyStrip t.text) 100) :=
      List.filter_eq_self.2 (fun a _ => rfl)
    rw [hall]
    rfl
  · decide

/-! ## Order lemmas for the producer's sort keys -/

lemma lexLeB_total : ∀ a b : List Char, lexLeB a b = true ∨ lexLeB b a = true := by
  intro a
  induction a with
  | nil => intro b; left; rfl
  | cons x as ih =>
    intro b
    cases b with
    | nil => right; rfl
    | cons y bs =>
      rcases lt_trichotomy x y with h | h | h
      · left; simp [lexLeB, h]
      · subst h
        rcases ih bs with h2 | h2
        · left; simp [lexLeB, lt_irrefl, h2]
        · right; simp [lexLeB, lt_irrefl, h2]
      · right; simp [lexLeB, h]

lemma lexLeB_trans : ∀ a b c : List Char,
    lexLeB a b = true → lexLeB b c = true → lexLeB a c = true := by
  intro a
  induction a with
  | nil => intro b c _ _; rfl
  | cons x as ih =>
    intro b c hab hbc
    cases b with
    | nil => simp [lexLeB] at hab
    | cons y bs =>
      cases c with
      | nil => simp [lexLeB] at hbc
      | cons z cs =>
        by_cases hxy : x < y
        · by_cases hyz : y < z
          · have hxz : x < z := lt_trans hxy hyz
            simp [lexLeB, hxz]
          · by_cases hyz2 : y = z
            · subst hyz2
              simp [lexLeB, hxy]
            · simp [lexLeB, hyz, hyz2] at hbc
        · by_cases hxy2 : x = y
          · subst hxy2
            have hab2 : lexLeB as bs = true := by simpa [lexLeB, hxy] using hab
            by_cases hyz : x < z
            · simp [lexLeB, hyz]
            · by_cases hyz2 : x = z
              · subst hyz2
                have hbc2 : lexLeB bs cs = true := by simpa [lexLeB, hyz] using hbc
                simp [lexLeB, hyz, ih bs cs hab2 hbc2]
              · simp [lexLeB, hyz, hyz2] at hbc
          · simp [lexLeB, hxy, hxy2] at hab

lemma lexLeB_antisymm : ∀ a b : List Char,
    lexLeB a b = true → lexLeB b a = true → a = b := by
  intro a
  induction a with
  | nil =>
    intro b h1 h2
    cases b with
    | nil => rfl
    | cons y bs => simp [lexLeB] at h2
  | cons x as ih =>
    intro b h1 h2
    cases b with
    | nil => simp [lexLeB] at h1
    | cons y bs =>
      by_cases hxy : x < y
      · have hyx : ¬y < x := lt_asymm hxy
        have hne : ¬y = x := fun he => absurd (he ▸ hxy) (lt_irrefl x)
        simp [lexLeB, hyx, hne] at h2
      · by_cases hxy2 : x = y
        · subst hxy2
          have h1b : lexLeB as bs = true := by simpa [lexLeB, hxy] using h1
          have h2b : lexLeB bs as = true := by simpa [lexLeB, hxy] using h2
          rw [ih bs h1b h2b]
        · simp [lexLeB, hxy, hxy2] at h1

instance : IsTotal (List Char) nameLe :=
  ⟨fun a b => lexLeB_total (lowStr a) (lowStr b)⟩

instance : IsTrans (List Char) nameLe :=
  ⟨fun a b c => lexLeB_trans (lowStr a) (lowStr b) (lowStr c)⟩

instance : IsTotal (Nat × List Char) idxLe :=
  ⟨fun a b => Nat.le_total a.1 b.1⟩

instance : IsTrans (Nat × List Char) idxLe :=
  ⟨fun _ _ _ => Nat.le_trans⟩

/-! ## Stem-parsing lemmas -/

lemma takeWhile_append_all {p : Char → Bool} {u : List Char}
    (hu : ∀ x ∈ u, p x = true) (v : List Char) :
    (u ++ v).takeWhile p = u ++ v.takeWhile p := by
  induction u with
  | nil => simp
  | cons c u' ih =>
    rw [List.cons_append, List.takeWhile_cons_of_pos (hu c (by simp)),
      ih (fun x hx => hu x (by simp [hx]))]
    rfl

lemma dropWhile_append_all {p : Char → Bool} {u : List Char}
    (hu : ∀ x ∈ u, p x = true) (v : List Char) :
    (u ++ v).dropWhile p = v.dropWhile p := by
  induction u with
  | nil => simp
  | cons c u' ih =>
    rw [List.cons_append, List.dropWhile_cons_of_pos (hu c (by simp)),
      ih (fun x hx => hu x (by simp [hx]))]

lemma dropWhile_head_false {p : Char → Bool} :
    ∀ (l : List Char) (c : Char) (w : List Char), l.dropWhile p = c :: w → p c = false := by
  intro l
  induction l with
  | nil => intro c w h; simp at h
  | cons x xs ih =>
    intro c w h
    by_cases hx : p x
    · rw [List.dropWhile_cons_of_pos hx] at h
      exact ih c w h
    · rw [List.dropWhile_cons_of_neg hx] at h
      cases h
      simpa using hx

lemma rsplitDash_suffix (b ds : List Char) (hds : ∀ c ∈ ds, c ≠ '-') :
    rsplitDash (b ++ '-' :: ds) = (b, ds) := by
  have hrev : (b ++ '-' :: ds).reverse = ds.reverse ++ '-' :: b.reverse := by
    rw [List.reverse_append, List.reverse_cons]
    simp
  have hp : ∀ x ∈ ds.reverse, (fun c => decide (c ≠ '-')) x = true := by
    intro x hx
    simp [hds x (List.mem_reverse.1 hx)]
  simp only [rsplitDash]
  rw [hrev, takeWhile_append_all hp, dropWhile_append_all hp,
    List.takeWhile_cons_of_neg (by simp), List.dropWhile_cons_of_neg (by simp)]
  simp

lemma rsplitDash_reconstruct (stem : List Char) (h : '-' ∈ stem) :
    stem = (rsplitDash stem).1 ++ '-' :: (rsplitDash stem).2 := by
  have hrev : '-' ∈ stem.reverse := List.mem_reverse.2 h
  have hdw : stem.reverse.dropWhile (fun c => decide (c ≠ '-')) ≠ [] := by
    intro hnil
    rw [List.dropWhile_eq_nil_iff] at hnil
    have := hnil '-' hrev
    simp at this
  obtain ⟨c, w, hw⟩ : ∃ c w, stem.reverse.dropWhile (fun c => decide (c ≠ '-')) = c :: w := by
    cases hcase : stem.reverse.dropWhile (fun c => decide (c ≠ '-')) with
    | nil => exact absurd hcase hdw
    | cons c w => exact ⟨c, w, rfl⟩
  have hc : c = '-' := by
    have hfalse := dropWhile_head_false stem.reverse c w hw
    simpa using hfalse
  subst hc
  have hsplit := List.takeWhile_append_dropWhile (fun c => decide (c ≠ '-')) stem.reverse
  simp only [rsplitDash]
  conv_lhs => rw [← List.reverse_reverse stem, ← hsplit]
  rw [hw, show ('-' :: w).drop 1 = w from rfl, List.reverse_append, List.reverse_cons]
  simp [List.append_assoc]

lemma parseStem_suffix (b ds : List Char) (hne : ds ≠ [])
    (hdig : ∀ c ∈ ds, c.isDigit = true) :
    parseStem (b ++ '-' :: ds) = (b, natOfDigits ds) := by
  have hnd : ∀ c ∈ ds, c ≠ '-' := by
    intro c hc he
    have hd := hdig c hc
    rw [he] at hd
    exact absurd hd (by decide)
  unfold parseStem
  rw [if_pos (by simp), rsplitDash_suffix b ds hnd]
  rw [if_pos ⟨List.all_eq_true.2 hdig, hne⟩]

lemma parseStem_noSuffix (stem : List Char)
    (h : ∀ b ds, stem = b ++ '-' :: ds → ds = [] ∨ ∃ c ∈ ds, c.isDigit = false) :
    parseStem stem = (stem, 0) := by
  unfold parseStem
  by_cases hd : '-' ∈ stem
  · rw [if_pos hd]
    have hrec := rsplitDash_reconstruct stem hd
    rcases h _ _ hrec with h2 | ⟨c, hc, hcd⟩
    · rw [if_neg]
      rintro ⟨_, hne⟩
      exact hne h2
    · rw [if_neg]
      rintro ⟨hall, _⟩
      have := List.all_eq_true.1 hall c hc
      rw [hcd] at this
      exact absurd this (by decide)
  · rw [if_neg hd]

/-! ## Audio-group and image-map lemmas -/

lemma addGroup_keys (gs : List (List Char × List (Nat × List Char))) (b : List Char)
    (e : Nat × List Char) (k : List Char) :
    k ∈ groupKeys (addGroup gs b e) ↔ k ∈ groupKeys gs ∨ k = b := by
  simp only [groupKeys]
  induction gs with
  | nil =>
    simp [addGroup]
  | cons g rest ih =>
    by_cases hg : g.1 = b
    · rw [show addGroup (g :: rest) b e = (g.1, g.2 ++ [e]) :: rest by simp [addGroup, hg]]
      simp only [List.map_cons, List.mem_cons]
      constructor
      · rintro (h | h)
        · exact Or.inl (Or.inl h)
        · exact Or.inl (Or.inr h)
      · rintro ((h | h) | h)
        · exact Or.inl h
        · exact Or.inr h
        · exact Or.inl (h.trans hg.symm)
    · rw [show addGroup (g :: rest) b e = g :: addGroup rest b e by simp [addGroup, hg]]
      simp only [List.map_cons, List.mem_cons]
      rw [show (k ∈ List.map Prod.fst (addGroup rest b e))
          ↔ (k ∈ List.map Prod.fst rest ∨ k = b) from ih]
      tauto

lemma addGroup_values_ne (gs : List (List Char × List (Nat × List Char))) (b : List Char)
    (e : Nat × List Char) (h : ∀ g ∈ gs, g.2 ≠ []) :
    ∀ g ∈ addGroup gs b e, g.2 ≠ [] := by
  induction gs with
  | nil =>
    intro g hg
    simp [addGroup] at hg
    subst hg
    simp
  | cons g0 rest ih =>
    intro g hg
    by_cases hg0 : g0.1 = b
    · rw [show addGroup (g0 :: rest) b e = (g0.1, g0.2 ++ [e]) :: rest by
        simp [addGroup, hg0]] at hg
      rcases List.mem_cons.1 hg with rfl | hg
      · simp
      · exact h g (by simp [hg])
    · rw [show addGroup (g0 :: rest) b e = g0 :: addGroup rest b e by
        simp [addGroup, hg0]] at hg
      rcases List.mem_cons.1 hg with rfl | hg
      · exact h g (by simp)
      · exact ih (fun x hx => h x (by simp [hx])) g hg

lemma groupsFold_values_ne (auds : List (List Char)) :
    ∀ g ∈ audioGroupsOf auds, g.2 ≠ [] := by
  unfold audioGroupsOf
  generalize sortByNameLower auds = l
  have hgen : ∀ (l : List (List Char)) (gs : List (List Char × List (Nat × List Char))),
      (∀ g ∈ gs, g.2 ≠ []) →
      ∀ g ∈ l.foldl (fun gs p =>
          let bi := parseStem (stemOf p)
          addGroup gs bi.1 (bi.2, p)) gs, g.2 ≠ [] := by
    intro l
    induction l with
    | nil => intro gs h; exact h
    | cons p rest ih =>
      intro gs h
      rw [List.foldl_cons]
      exact ih _ (addGroup_values_ne gs _ _ h)
  exact hgen l [] (by simp)

lemma groupsFold_keys (b : List Char) :
    ∀ (l : List (List Char)) (gs : List (List Char × List (Nat × List Char))),
      (b ∈ groupKeys (l.foldl (fun gs p =>
          let bi := parseStem (stemOf p)
          addGroup gs bi.1 (bi.2, p)) gs)
        ↔ b ∈ groupKeys gs ∨ ∃ a ∈ l, (parseStem (stemOf a)).1 = b) := by
  intro l
  induction l with
  | nil => intro gs; simp
  | cons p rest ih =>
    intro gs
    rw [List.foldl_cons]
    rw [ih]
    rw [addGroup_keys]
    constructor
    · rintro ((h | h) | ⟨a, ha, he⟩)
      · exact Or.inl h
      · exact Or.inr ⟨p, by simp, h.symm⟩
      · exact Or.inr ⟨a, by simp [ha], he⟩
    · rintro (h | ⟨a, ha, he⟩)
      · exact Or.inl (Or.inl h)
      · rcases List.mem_cons.1 ha with rfl | ha
        · exact Or.inl (Or.inr he.symm)
        · exact Or.inr ⟨a, ha, he⟩

lemma audioGroups_keys_mem (auds : List (List Char)) (b : List Char) :
    b ∈ groupKeys (audioGroupsOf auds) ↔ ∃ a ∈ auds, (parseStem (stemOf a)).1 = b := by
  unfold audioGroupsOf
  rw [groupsFold_keys b (sortByNameLower auds) []]
  have hperm : (sortByNameLower auds).Perm auds := List.perm_insertionSort nameLe auds
  constructor
  · rintro (h | ⟨a, ha, he⟩)
    · simp [groupKeys] at h
    · exact ⟨a, hperm.mem_iff.1 ha, he⟩
  · rintro ⟨a, ha, he⟩
    exact Or.inr ⟨a, hperm.mem_iff.2 ha, he⟩

lemma lookupGroup_ne_nil (gs : List (List Char × List (Nat × List Char))) (b : List Char)
    (hk : b ∈ groupKeys gs) (hv : ∀ g ∈ gs, g.2 ≠ []) : lookupGroup gs b ≠ [] := by
  induction gs with
  | nil => simp [groupKeys] at hk
  | cons g rest ih =>
    by_cases hg : g.1 = b
    · rw [show lookupGroup (g :: rest) b = g.2 by simp [lookupGroup, hg]]
      exact hv g (by simp)
    · rw [show lookupGroup (g :: rest) b = lookupGroup rest b by simp [lookupGroup, hg]]
      have hk2 : b ∈ groupKeys rest := by
        simp only [groupKeys, List.map_cons, List.mem_cons] at hk
        rcases hk with hk | hk
        · exact absurd hk.symm hg
        · exact hk
      exact ih hk2 (fun x hx => hv x (by simp [hx]))

lemma setAssoc_keys (m : List (List Char × List Char)) (k v b : List Char) :
    b ∈ (setAssoc m k v).map Prod.fst ↔ b ∈ m.map Prod.fst ∨ b = k := by
  induction m with
  | nil => simp [setAssoc]
  | cons e rest ih =>
    by_cases he : e.1 = k
    · rw [show setAssoc (e :: rest) k v = (k, v) :: rest by simp [setAssoc, he]]
      simp only [List.map_cons, List.mem_cons]
      constructor
      · rintro (h | h)
        · exact Or.inr h
        · exact Or.inl (Or.inr h)
      · rintro ((h | h) | h)
        · exact Or.inl (h.trans he)
        · exact Or.inr h
        · exact Or.inl h
    · rw [show setAssoc (e :: rest) k v = e :: setAssoc rest k v by simp [setAssoc, he]]
      simp only [List.map_cons, List.mem_cons]
      rw [ih]
      tauto

lemma imageMap_keys_mem (imgs : List (List Char)) (b : List Char) :
    b ∈ (imageMapOf imgs).map Prod.fst ↔ ∃ p ∈ imgs, stemOf p = b := by
  unfold imageMapOf
  have hgen : ∀ (l : List (List Char)) (m : List (List Char × List Char)),
      (b ∈ (l.foldl (fun m p => setAssoc m (stemOf p) p) m).map Prod.fst
        ↔ b ∈ m.map Prod.fst ∨ ∃ p ∈ l, stemOf p = b) := by
    intro l
    induction l with
    | nil => intro m; simp
    | cons p rest ih =>
      intro m
      rw [List.foldl_cons, ih, setAssoc_keys]
      constructor
      · rintro ((h | h) | ⟨a, ha, he⟩)
        · exact Or.inl h
        · exact Or.inr ⟨p, by simp, h.symm⟩
        · exact Or.inr ⟨a, by simp [ha], he⟩
      · rintro (h | ⟨a, ha, he⟩)
        · exact Or.inl (Or.inl h)
        · rcases List.mem_cons.1 ha with rfl | ha
          · exact Or.inl (Or.inr he.symm)
          · exact Or.inr ⟨a, ha, he⟩
  rw [hgen (sortByNameLower imgs) []]
  have hperm : (sortByNameLower imgs).Perm imgs := List.perm_insertionSort nameLe imgs
  constructor
  · rintro (h | ⟨a, ha, he⟩)
    · simp at h
    · exact ⟨a, hperm.mem_iff.1 ha, he⟩
  · rintro ⟨a, ha, he⟩
    exact Or.inr ⟨a, hperm.mem_iff.2 ha, he⟩

lemma interCanon_mem (imgs auds : List (List Char)) (b : List Char) :
    b ∈ interCanon imgs auds
      ↔ (∃ p ∈ imgs, stemOf p = b) ∧ ∃ a ∈ auds, (parseStem (stemOf a)).1 = b := by
  unfold interCanon
  rw [List.mem_filter]
  rw [imageMap_keys_mem]
  constructor
  · rintro ⟨h1, h2⟩
    exact ⟨h1, (audioGroups_keys_mem auds b).1 (by simpa using h2)⟩
  · rintro ⟨h1, h2⟩
    exact ⟨h1, by simpa using (audioGroups_keys_mem auds b).2 h2⟩

/-- Claim C3 as stated is refuted by the files `x-00.wav` and `x.wav`:
both parse to base `x`, the suffixed `x-00.wav` also carrying index 0,
and in the group's chunk order `x-00.wav` precedes the unsuffixed
`x.wav` — so an unsuffixed file does not always sort before suffixed
files sharing its base. -/
theorem claim_C3_counterexample :
    parseStem (stemOf "x-00.wav".toList) = ( "x".toList, 0)
    ∧ parseStem (stemOf "x.wav".toList) = ( "x".toList, 0)
    ∧ groupChunks (audioGroupsOf [ "x-00.wav".toList, "x.wav".toList]) ( "x".toList)
        = [(0, "x-00.wav".toList), (0, "x.wav".toList)] := by decide

/-- Claim C3 (amended): stripping a trailing `-NN` all-digits suffix
yields base plus index `int(NN)`, a stem with no such suffix is its own
base with index 0, and each group's entries are sorted (non-strictly)
ascending by index — hence an unsuffixed file (index 0) precedes every
entry with positive index sharing its base, while a `-00`-suffixed file
ties at index 0 and keeps filename order (see the counterexample);
`intro.wav`, `intro-01.wav`, `intro-02.wav` group under `intro` in that
order. -/
theorem claim_C3_amended (b ds stem2 key : List Char) (auds : List (List Char))
    (hds : ds ≠ []) (hdig : ∀ c ∈ ds, c.isDigit = true)
    (hns : ∀ b2 ds2, stem2 = b2 ++ '-' :: ds2 → ds2 = [] ∨ ∃ c ∈ ds2, c.isDigit = false) :
    parseStem (b ++ '-' :: ds) = (b, natOfDigits ds)
    ∧ parseStem stem2 = (stem2, 0)
    ∧ List.Pairwise idxLe (groupChunks (audioGroupsOf auds) key)
    ∧ groupChunks (audioGroupsOf
        [ "intro.wav".toList, "intro-01.wav".toList, "intro-02.wav".toList]) ( "intro".toList)
      = [(0, "intro.wav".toList), (1, "intro-01.wav".toList), (2, "intro-02.wav".toList)] := by
  refine ⟨parseStem_suffix b ds hds hdig, parseStem_noSuffix stem2 hns, ?_, by decide⟩
  exact List.sorted_insertionSort idxLe (lookupGroup (audioGroupsOf auds) key)

theorem claim_C3_witness :
    ( "01".toList ≠ [] ∧ ∀ c ∈ "01".toList, c.isDigit = true)
    ∧ parseStem ( "x".toList ++ '-' :: "01".toList) = ( "x".toList, natOfDigits "01".toList)
    ∧ parseStem "intro".toList = ( "intro".toList, 0) := by
  have hns : ∀ b2 ds2, "intro".toList = b2 ++ '-' :: ds2 →
      ds2 = [] ∨ ∃ c ∈ ds2, c.isDigit = false := by
    intro b2 ds2 heq
    exfalso
    have hmem : '-' ∈ "intro".toList := by
      rw [heq]
      exact List.mem_append_right b2 (List.mem_cons_self '-' ds2)
    exact absurd hmem (by decide)
  obtain ⟨h1, h2, _, _⟩ := claim_C3_amended "x".toList "01".toList "intro".toList
    ( "a".toList) [ "a-01.wav".toList] (by decide) (by decide) hns
  exact ⟨⟨by decide, by decide⟩, h1, h2⟩

/-- Claim C4: the assembled base names are exactly those present in both
the image-stem set and the audio-group key set, in case-insensitive
lexical order; unmatched names on either side are silently excluded, and
`create_video_from_directory` fails with the "no matching pairs" error
if and only if the intersection is empty. -/
theorem claim_C4_pairing (imgs auds io : List (List Char)) (dur : List Char → ℚ)
    (hio : io.Perm (interCanon imgs auds)) :
    (∀ b, b ∈ List.insertionSort nameLe io ↔
      ((∃ p ∈ imgs, stemOf p = b) ∧ ∃ a ∈ auds, (parseStem (stemOf a)).1 = b))
    ∧ List.Pairwise nameLe (List.insertionSort nameLe io)
    ∧ ((∃ e, create_video imgs auds io dur = .error e) ↔
        ¬∃ b, (∃ p ∈ imgs, stemOf p = b) ∧ ∃ a ∈ auds, (parseStem (stemOf a)).1 = b)
    ∧ (∀ segs, create_video imgs auds io dur = .ok segs →
        ∀ b, (∃ s ∈ segs, s.base = b) ↔
          ((∃ p ∈ imgs, stemOf p = b) ∧ ∃ a ∈ auds, (parseStem (stemOf a)).1 = b)) := by
  have hmem : ∀ b, b ∈ List.insertionSort nameLe io ↔
      ((∃ p ∈ imgs, stemOf p = b) ∧ ∃ a ∈ auds, (parseStem (stemOf a)).1 = b) := by
    intro b
    rw [(List.perm_insertionSort nameLe io).mem_iff, hio.mem_iff, interCanon_mem]
  have hcv : create_video imgs auds io dur
      = (if List.insertionSort nameLe io = []
         then Except.error "No matching (png,wav) pairs found"
         else Except.ok (((List.insertionSort nameLe io).map
            (segsOfPair dur (imageMapOf imgs) (audioGroupsOf auds))).flatten)) := rfl
  refine ⟨hmem, List.sorted_insertionSort nameLe io, ?_, ?_⟩
  · by_cases hnil : List.insertionSort nameLe io = []
    · rw [hcv, if_pos hnil]
      constructor
      · rintro - ⟨b, hb⟩
        have hbm := (hmem b).2 hb
        rw [hnil] at hbm
        simp at hbm
      · intro _
        exact ⟨_, rfl⟩
    · rw [hcv, if_neg hnil]
      constructor
      · rintro ⟨e, he⟩
        simp at he
      · intro hno
        exfalso
        rcases List.exists_mem_of_ne_nil _ hnil with ⟨b, hb⟩
        exact hno ⟨b, (hmem b).1 hb⟩
  · intro segs hok b
    rw [hcv] at hok
    by_cases hnil : List.insertionSort nameLe io = []
    · rw [if_pos hnil] at hok
      simp at hok
    · rw [if_neg hnil] at hok
      have hsegs : segs = ((List.insertionSort nameLe io).map
          (segsOfPair dur (imageMapOf imgs) (audioGroupsOf auds))).flatten := by
        cases hok
        rfl
      constructor
      · rintro ⟨s, hs, rfl⟩
        rw [hsegs] at hs
        rcases List.mem_flatten.1 hs with ⟨l, hl, hsl⟩
        rcases List.mem_map.1 hl with ⟨b2, hb2, rfl⟩
        rcases List.mem_map.1 hsl with ⟨e, he, rfl⟩
        exact (hmem b2).1 hb2
      · intro hb
        have hbmem : b ∈ List.insertionSort nameLe io := (hmem b).2 hb
        have hkey : b ∈ groupKeys (audioGroupsOf auds) :=
          (audioGroups_keys_mem auds b).2 hb.2
        have hlne : lookupGroup (audioGroupsOf auds) b ≠ [] :=
          lookupGroup_ne_nil _ b hkey (groupsFold_values_ne auds)
        have hcne : groupChunks (audioGroupsOf auds) b ≠ [] := by
          unfold groupChunks
          intro hc
          have hperm := List.perm_insertionSort idxLe (lookupGroup (audioGroupsOf auds) b)
          rw [hc] at hperm
          exact hlne hperm.symm.eq_nil
        rcases List.exists_mem_of_ne_nil _ hcne with ⟨e, he⟩
        refine ⟨⟨b, lookupImg (imageMapOf imgs) b, e.2, leadIn, dur e.2 + leadIn⟩, ?_, rfl⟩
        rw [hsegs]
        refine List.mem_flatten.2
          ⟨segsOfPair dur (imageMapOf imgs) (audioGroupsOf auds) b,
           List.mem_map.2 ⟨b, hbmem, rfl⟩, ?_⟩
        exact List.mem_map.2 ⟨e, he, rfl⟩

theorem claim_C4_witness :
    [ "a".toList].Perm (interCanon [ "a.png".toList] [ "a.wav".toList])
    ∧ List.Pairwise nameLe (List.insertionSort nameLe [ "a".toList]) := by
  refine ⟨by decide, ?_⟩
  exact (claim_C4_pairing [ "a.png".toList] [ "a.wav".toList] [ "a".toList]
    (fun _ => 1) (by decide)).2.1

/-- Claim C5: each produced segment lasts exactly the audio chunk's
duration plus the 1.0-second lead-in, with the audio offset to start at
the lead-in (so the first second is silent), and segments are
concatenated in pair order then chunk-index order. -/
theorem claim_C5_timeline (imgs auds io : List (List Char)) (dur : List Char → ℚ)
    (segs : List Seg) (h : create_video imgs auds io dur = .ok segs) :
    leadIn = 1
    ∧ (∀ seg ∈ segs, seg.total = dur seg.aud + leadIn ∧ seg.audioStart = leadIn
        ∧ seg.total - seg.audioStart = dur seg.aud)
    ∧ segs = ((List.insertionSort nameLe io).map
        (segsOfPair dur (imageMapOf imgs) (audioGroupsOf auds))).flatten
    ∧ (∀ b, List.Pairwise idxLe (groupChunks (audioGroupsOf auds) b))
    ∧ (∀ b, segsOfPair dur (imageMapOf imgs) (audioGroupsOf auds) b
        = (groupChunks (audioGroupsOf auds) b).map
            (fun e => ⟨b, lookupImg (imageMapOf imgs) b, e.2, leadIn, dur e.2 + leadIn⟩)) := by
  have hcv : create_video imgs auds io dur
      = (if List.insertionSort nameLe io = []
         then Except.error "No matching (png,wav) pairs found"
         else Except.ok (((List.insertionSort nameLe io).map
            (segsOfPair dur (imageMapOf imgs) (audioGroupsOf auds))).flatten)) := rfl
  rw [hcv] at h
  by_cases hnil : List.insertionSort nameLe io = []
  · rw [if_pos hnil] at h
    simp at h
  · rw [if_neg hnil] at h
    have hsegs : segs = ((List.insertionSort nameLe io).map
        (segsOfPair dur (imageMapOf imgs) (audioGroupsOf auds))).flatten := by
      cases h
      rfl
    refine ⟨rfl, ?_, hsegs,
      fun b => List.sorted_insertionSort idxLe (lookupGroup (audioGroupsOf auds) b),
      fun b => rfl⟩
    intro seg hs
    rw [hsegs] at hs
    rcases List.mem_flatten.1 hs with ⟨l, hl, hsl⟩
    rcases List.mem_map.1 hl with ⟨b2, hb2, rfl⟩
    rcases List.mem_map.1 hsl with ⟨e, he, rfl⟩
    refine ⟨rfl, rfl, ?_⟩
    show dur e.2 + leadIn - leadIn = dur e.2
    ring

theorem claim_C5_witness :
    create_video [ "a.png".toList] [ "a.wav".toList] [ "a".toList] (fun _ => (4 : ℚ))
      = Except.ok [⟨ "a".toList, "a.png".toList, "a.wav".toList, leadIn, (4 : ℚ) + leadIn⟩]
    ∧ leadIn = 1 ∧ (4 : ℚ) + leadIn = 5 := by
  refine ⟨rfl, ?_, by norm_num [leadIn]⟩
  exact (claim_C5_timeline [ "a.png".toList] [ "a.wav".toList] [ "a".toList]
    (fun _ => (4 : ℚ))
    [⟨ "a".toList, "a.png".toList, "a.wav".toList, leadIn, (4 : ℚ) + leadIn⟩] rfl).1

/-- Claim C9 describes required behaviour the code does not implement:
the write-and-clean-up tail has no `try`/`finally`, so when
`write_videofile` raises, none of the per-chunk `close()` calls nor
`final.close()` run; on success all of them run. -/
theorem claim_C9_cleanup :
    (VEvent.closeClip 0 ∈ finishEvents 1 false)
    ∧ (VEvent.closeFinal ∈ finishEvents 1 false)
    ∧ (VEvent.closeClip 0 ∉ finishEvents 1 true)
    ∧ (VEvent.closeFinal ∉ finishEvents 1 true)
    ∧ finishEvents 1 true = [VEvent.write false] := by decide

/-- Claim C10 as stated is false: with images `A.png`, `a.png` and audio
`A.wav`, `a.wav`, the base names `A` and `a` tie under the
case-insensitive sort key, and the tie is broken by the enumeration
order of the Python set intersection — which is hash-randomized across
runs, not determined by the filename sets.  Two legitimate enumerations
of the same intersection produce different matched-pair orders. -/
theorem claim_C10_counterexample :
    [ "A".toList, "a".toList].Perm (interCanon [ "A.png".toList, "a.png".toList]
        [ "A.wav".toList, "a.wav".toList])
    ∧ [ "a".toList, "A".toList].Perm (interCanon [ "A.png".toList, "a.png".toList]
        [ "A.wav".toList, "a.wav".toList])
    ∧ pairOrderOf (create_video [ "A.png".toList, "a.png".toList]
        [ "A.wav".toList, "a.wav".toList] [ "A".toList, "a".toList] (fun _ => 1))
      = [ "A".toList, "a".toList]
    ∧ pairOrderOf (create_video [ "A.png".toList, "a.png".toList]
        [ "A.wav".toList, "a.wav".toList] [ "a".toList, "A".toList] (fun _ => 1))
      = [ "a".toList, "A".toList] := by decide

lemma pairwise_perm_eq : ∀ (l1 l2 : List (List Char)), l1.Perm l2 →
    List.Pairwise nameLe l1 → List.Pairwise nameLe l2 →
    (∀ a ∈ l1, ∀ b ∈ l1, lowStr a = lowStr b → a = b) → l1 = l2 := by
  intro l1
  induction l1 with
  | nil =>
    intro l2 hp _ _ _
    exact (List.eq_nil_of_length_eq_zero hp.length_eq.symm).symm
  | cons a t1 ih =>
    intro l2 hp h1 h2 hinj
    cases l2 with
    | nil => exact absurd hp.length_eq (by simp)
    | cons b t2 =>
      have hab : a = b := by
        have hamem : a ∈ b :: t2 := hp.mem_iff.1 (by simp)
        rcases List.mem_cons.1 hamem with h | h
        · exact h
        · have hba : nameLe b a := (List.pairwise_cons.1 h2).1 a h
          have hbmem : b ∈ a :: t1 := hp.mem_iff.2 (by simp)
          rcases List.mem_cons.1 hbmem with h3 | h3
          · exact h3.symm
          · have hab2 : nameLe a b := (List.pairwise_cons.1 h1).1 b h3
            exact hinj a (by simp) b (by simp [h3]) (lexLeB_antisymm _ _ hab2 hba)
      subst hab
      have hp2 : t1.Perm t2 := hp.cons_inv
      rw [ih t2 hp2 (List.pairwise_cons.1 h1).2 (List.pairwise_cons.1 h2).2
        (fun x hx y hy => hinj x (by simp [hx]) y (by simp [hy]))]

lemma sorted_eq_of_perm (l1 l2 : List (List Char)) (hp : l1.Perm l2)
    (hinj : ∀ a ∈ l1, ∀ b ∈ l1, lowStr a = lowStr b → a = b) :
    List.insertionSort nameLe l1 = List.insertionSort nameLe l2 := by
  have hperm : (List.insertionSort nameLe l1).Perm (List.insertionSort nameLe l2) :=
    (List.perm_insertionSort nameLe l1).trans
      (hp.trans (List.perm_insertionSort nameLe l2).symm)
  refine pairwise_perm_eq _ _ hperm (List.sorted_insertionSort nameLe l1)
    (List.sorted_insertionSort nameLe l2) ?_
  intro a ha b hb
  exact hinj a ((List.perm_insertionSort nameLe l1).mem_iff.1 ha)
    b ((List.perm_insertionSort nameLe l1).mem_iff.1 hb)

/-- Claim C10 (amended): when no two distinct image filenames, audio
filenames, or intersection base names coincide case-insensitively, the
output of `create_video_from_directory` — matched-pair order and
per-pair chunk order — is fully determined by the filename sets: it is
invariant under permutation of the directory-scan orders and of the set
enumeration order. -/
theorem claim_C10_assembly_order (imgs1 imgs2 auds1 auds2 io1 io2 : List (List Char))
    (dur : List Char → ℚ)
    (hpi : imgs1.Perm imgs2) (hpa : auds1.Perm auds2)
    (hio1 : io1.Perm (interCanon imgs1 auds1)) (hio2 : io2.Perm (interCanon imgs2 auds2))
    (hli : ∀ a ∈ imgs1, ∀ b ∈ imgs1, lowStr a = lowStr b → a = b)
    (hla : ∀ a ∈ auds1, ∀ b ∈ auds1, lowStr a = lowStr b → a = b)
    (hlio : ∀ a ∈ io1, ∀ b ∈ io1, lowStr a = lowStr b → a = b) :
    create_video imgs1 auds1 io1 dur = create_video imgs2 auds2 io2 dur := by
  have hsi : List.insertionSort nameLe imgs1 = List.insertionSort nameLe imgs2 :=
    sorted_eq_of_perm _ _ hpi hli
  have hsa : List.insertionSort nameLe auds1 = List.insertionSort nameLe auds2 :=
    sorted_eq_of_perm _ _ hpa hla
  have hmap : imageMapOf imgs1 = imageMapOf imgs2 := by
    unfold imageMapOf sortByNameLower
    rw [hsi]
  have hgroups : audioGroupsOf auds1 = audioGroupsOf auds2 := by
    unfold audioGroupsOf sortByNameLower
    rw [hsa]
  have hic : interCanon imgs1 auds1 = interCanon imgs2 auds2 := by
    unfold interCanon
    rw [hmap, hgroups]
  have h3 : (interCanon imgs1 auds1).Perm io2 := by
    rw [hic]
    exact hio2.symm
  have hsio : List.insertionSort nameLe io1 = List.insertionSort nameLe io2 :=
    sorted_eq_of_perm _ _ (hio1.trans h3) hlio
  have hcv1 : create_video imgs1 auds1 io1 dur
      = (if List.insertionSort nameLe io1 = []
         then Except.error "No matching (png,wav) pairs found"
         else Except.ok (((List.insertionSort nameLe io1).map
            (segsOfPair dur (imageMapOf imgs1) (audioGroupsOf auds1))).flatten)) := rfl
  have hcv2 : create_video imgs2 auds2 io2 dur
      = (if List.insertionSort nameLe io2 = []
         then Except.error "No matching (png,wav) pairs found"
         else Except.ok (((List.insertionSort nameLe io2).map
            (segsOfPair dur (imageMapOf imgs2) (audioGroupsOf auds2))).flatten)) := rfl
  rw [hcv1, hcv2, hsio, hmap, hgroups]

theorem claim_C10_witness :
    [ "b.png".toList, "a.png".toList].Perm [ "a.png".toList, "b.png".toList]
    ∧ create_video [ "b.png".toList, "a.png".toList] [ "b.wav".toList, "a.wav".toList]
        [ "a".toList, "b".toList] (fun _ => 1)
      = create_video [ "a.png".toList, "b.png".toList] [ "a.wav".toList, "b.wav".toList]
        [ "b".toList, "a".toList] (fun _ => 1) := by
  refine ⟨by decide, ?_⟩
  exact claim_C10_assembly_order
    [ "b.png".toList, "a.png".toList] [ "a.png".toList, "b.png".toList]
    [ "b.wav".toList, "a.wav".toList] [ "a.wav".toList, "b.wav".toList]
    [ "a".toList, "b".toList] [ "b".toList, "a".toList] (fun _ => 1)
    (by decide) (by decide) (by decide) (by decide) (by decide) (by decide) (by decide)
